import Mathlib

/-!
Verification of the streaming FASTA statistics engine of `count-fasta-rs`.

The development shallowly embeds the Rust sources:
  * `src/simd.rs`   — the byte classifier (`LOOKUP`, `update_stats_scalar`,
    the AVX2 / AVX512 / NEON / SVE2 vector kernels and the `update_stats`
    dispatcher);
  * `src/process_files.rs` — the streaming parser (`FastaParser::feed`,
    `FastaParser::finish`), the stats reducer
    (`AnalysisResults::calculate_stats`), and the zip-archive walk
    (`process_zip_file`, `VALID_FILES`);
  * `src/main.rs`   — the worker-count heuristic (`determine_threads`).

Bytes are modelled as `Nat` (the byte domain is 0–255; theorems that depend
on byte-level bit tricks carry an explicit `b < 256` hypothesis).
Rust `usize` values are modelled as `Nat`; `usize::MAX` is the explicit
sentinel constant `USIZE_MAX`.  Machine-dependent inputs (CPU feature
probing, SVE vector length, slice alignment as produced by
`slice::align_to`) are modelled as explicit parameters collected in the
`SimdCaps` structure, constrained by the `ValidCaps` predicate.
-/

/-! ## Byte classifier (src/simd.rs) -/

/-- Decidable predicate for the GC byte class `G, g, C, c`
(71, 103, 67, 99): the bytes whose `LOOKUP` entry is 1. -/
def isGCByte (b : Nat) : Bool := decide (b = 71 ∨ b = 103 ∨ b = 67 ∨ b = 99)

/-- Decidable predicate for the N byte class `N, n` (78, 110): the bytes
whose `LOOKUP` entry is 2. -/
def isNByte (b : Nat) : Bool := decide (b = 78 ∨ b = 110)

/-- Decidable predicate for the Skip byte class: space 32, tab 9,
newline 10, carriage return 13, dash 45, dot 46 — the bytes whose `LOOKUP`
entry is 4. -/
def isSkipByte (b : Nat) : Bool :=
  decide (b = 32 ∨ b = 9 ∨ b = 10 ∨ b = 13 ∨ b = 45 ∨ b = 46)

/-- Shallow embedding of the 256-entry `LOOKUP` table of `src/simd.rs`
(lines 7-32).  Bit 0 marks GC bytes, bit 1 marks N bytes, bit 2 marks Skip
bytes; all other table entries are 0.  The table is total on 0–255; inputs
≥ 256 (outside the byte domain) fall through to the default entry 0. -/
def LOOKUP (b : Nat) : Nat :=
  if isGCByte b then 1
  else if isNByte b then 2
  else if isSkipByte b then 4
  else 0

/-- Embedding of `update_stats_scalar` (src/simd.rs:168-179): the portable
per-byte loop.  For each byte it adds `val &&& 1` to the GC counter,
`(val &&& 2) >>> 1` to the N counter, and `1 - (val >>> 2)` to the
sequence-character counter, where `val = LOOKUP b`. -/
def update_stats_scalar (line : List Nat) : Nat × Nat × Nat :=
  line.foldl
    (fun acc b =>
      let val := LOOKUP b
      (acc.1 + (val &&& 1), acc.2.1 + ((val &&& 2) >>> 1), acc.2.2 + (1 - (val >>> 2))))
    (0, 0, 0)

theorem skip_not_gc (b : Nat) (h : isGCByte b = true) : isSkipByte b = false := by
  unfold isGCByte at h
  unfold isSkipByte
  simp only [decide_eq_true_eq] at h
  simp only [decide_eq_false_iff_not]
  omega

theorem skip_not_n (b : Nat) (h : isNByte b = true) : isSkipByte b = false := by
  unfold isNByte at h
  unfold isSkipByte
  simp only [decide_eq_true_eq] at h
  simp only [decide_eq_false_iff_not]
  omega

theorem n_not_gc (b : Nat) (h : isGCByte b = true) : isNByte b = false := by
  unfold isGCByte at h
  unfold isNByte
  simp only [decide_eq_true_eq] at h
  simp only [decide_eq_false_iff_not]
  omega

theorem lookup_and_one (b : Nat) : LOOKUP b &&& 1 = if isGCByte b then 1 else 0 := by
  unfold LOOKUP
  by_cases h1 : isGCByte b
  · simp [h1]
  · by_cases h2 : isNByte b
    · simp [h1, h2]
    · by_cases h3 : isSkipByte b
      · simp [h1, h2, h3]
      · simp [h1, h2, h3]

theorem lookup_and_two (b : Nat) :
    (LOOKUP b &&& 2) >>> 1 = if isNByte b then 1 else 0 := by
  unfold LOOKUP
  by_cases h1 : isGCByte b
  · simp [h1, n_not_gc b h1]
  · by_cases h2 : isNByte b
    · simp [h1, h2]
    · by_cases h3 : isSkipByte b
      · simp [h1, h2, h3]
        decide
      · simp [h1, h2, h3]

theorem lookup_shift_two (b : Nat) :
    1 - (LOOKUP b >>> 2) = if isSkipByte b then 0 else 1 := by
  unfold LOOKUP
  by_cases h1 : isGCByte b
  · simp [h1, skip_not_gc b h1]
  · by_cases h2 : isNByte b
    · simp [h1, h2, skip_not_n b h2]
    · by_cases h3 : isSkipByte b
      · simp [h1, h2, h3]
      · simp [h1, h2, h3]

/-- Accumulator-generalised unfolding of the scalar loop. -/
theorem update_stats_scalar_go (line : List Nat) (g n s : Nat) :
    line.foldl
      (fun acc b =>
        let val := LOOKUP b
        (acc.1 + (val &&& 1), acc.2.1 + ((val &&& 2) >>> 1), acc.2.2 + (1 - (val >>> 2))))
      (g, n, s)
    = (g + (update_stats_scalar line).1,
       n + (update_stats_scalar line).2.1,
       s + (update_stats_scalar line).2.2) := by
  induction line generalizing g n s with
  | nil => simp [update_stats_scalar]
  | cons b rest ih =>
    simp only [update_stats_scalar, List.foldl_cons]
    rw [ih, ih (0 + (LOOKUP b &&& 1))]
    simp only [Prod.mk.injEq]
    omega

/-- Unfolding of `update_stats_scalar` over a cons cell. -/
theorem update_stats_scalar_cons (b : Nat) (rest : List Nat) :
    update_stats_scalar (b :: rest)
    = ((LOOKUP b &&& 1) + (update_stats_scalar rest).1,
       ((LOOKUP b &&& 2) >>> 1) + (update_stats_scalar rest).2.1,
       (1 - (LOOKUP b >>> 2)) + (update_stats_scalar rest).2.2) := by
  show List.foldl _ _ (b :: rest) = _
  simp only [List.foldl_cons]
  rw [update_stats_scalar_go]
  simp

/-- Characterisation of the scalar classifier: it returns the number of GC
bytes, the number of N bytes, and the slice length minus the number of Skip
bytes. -/
theorem update_stats_scalar_eq_counts (line : List Nat) :
    update_stats_scalar line
    = (line.countP isGCByte, line.countP isNByte,
       line.length - line.countP isSkipByte) := by
  induction line with
  | nil => simp [update_stats_scalar]
  | cons b rest ih =>
    have hskip : rest.countP isSkipByte ≤ rest.length := List.countP_le_length _
    rw [update_stats_scalar_cons, ih, lookup_and_one, lookup_and_two, lookup_shift_two]
    simp only [List.countP_cons, List.length_cons, Prod.mk.injEq]
    by_cases hg : isGCByte b
    · have hs := skip_not_gc b hg
      simp [hg, hs]
      by_cases hn : isNByte b <;> simp [hn] <;> omega
    · by_cases hn : isNByte b
      · have hs := skip_not_n b hn
        simp [hg, hn, hs]
        omega
      · by_cases hs : isSkipByte b <;> simp [hg, hn, hs] <;> omega

/-- The number of Skip bytes never exceeds the slice length. -/
theorem countP_skip_le (line : List Nat) : line.countP isSkipByte ≤ line.length :=
  List.countP_le_length _

/-- Componentwise addition form of the scalar classifier over appended
slices: concatenating partial results equals classifying the whole slice. -/
theorem update_stats_scalar_append (a b : List Nat) :
    update_stats_scalar (a ++ b)
    = ((update_stats_scalar a).1 + (update_stats_scalar b).1,
       (update_stats_scalar a).2.1 + (update_stats_scalar b).2.1,
       (update_stats_scalar a).2.2 + (update_stats_scalar b).2.2) := by
  have ha := countP_skip_le a
  have hb := countP_skip_le b
  simp only [update_stats_scalar_eq_counts, List.countP_append, List.length_append,
    Prod.mk.injEq, true_and, and_true]
  omega

/-! ## SIMD kernels (src/simd.rs)

The vector kernels are embedded at the level of their per-lane semantics:
each intrinsic sequence is translated to the per-byte test it performs on
every lane of a chunk, and lane-mask popcounts become `List.countP` over
the chunk.  The `slice::align_to` head/middle/tail split is
address-dependent, so the split is an explicit parameter (constrained to be
a genuine split into fixed-width chunks). -/

/-- Per-lane GC test of the AVX2/AVX512/NEON kernels: the lane is OR-ed
with the case mask `0x20` and compared for equality with `g` (103) and
`c` (99). -/
def caseMaskGC (b : Nat) : Bool := (b ||| 32) == 103 || (b ||| 32) == 99

/-- Per-lane N test of the AVX2/AVX512/NEON kernels: the case-folded lane
is compared for equality with `n` (110). -/
def caseMaskN (b : Nat) : Bool := (b ||| 32) == 110

set_option maxRecDepth 4000 in
/-- On the byte domain the case-mask GC test agrees with the `LOOKUP` GC
class. -/
theorem caseMaskGC_eq_isGCByte : ∀ b < 256, caseMaskGC b = isGCByte b := by decide

set_option maxRecDepth 4000 in
/-- On the byte domain the case-mask N test agrees with the `LOOKUP` N
class. -/
theorem caseMaskN_eq_isNByte : ∀ b < 256, caseMaskN b = isNByte b := by decide

/-- Embedding of `update_stats_avx2` (src/simd.rs:181-242) over an explicit
`align_to::<__m256i>` split.  The head and tail are classified by the
scalar loop; each 32-byte middle chunk contributes the popcounts of its
case-folded `g`/`c` and `n` equality masks and `32 - skipped_count`
sequence characters, where the skip mask compares the unfolded lanes with
the six Skip bytes. -/
def update_stats_avx2 (head : List Nat) (mid : List (List Nat)) (tail : List Nat) :
    Nat × Nat × Nat :=
  let h := update_stats_scalar head
  let m := mid.foldl
    (fun acc chunk =>
      (acc.1 + chunk.countP caseMaskGC,
       acc.2.1 + chunk.countP caseMaskN,
       acc.2.2 + (32 - chunk.countP isSkipByte)))
    h
  let t := update_stats_scalar tail
  (m.1 + t.1, m.2.1 + t.2.1, m.2.2 + t.2.2)

/-- Embedding of `update_stats_avx512` (src/simd.rs:244-302) over an
explicit `align_to::<__m512i>` split, with 64-byte middle chunks. -/
def update_stats_avx512 (head : List Nat) (mid : List (List Nat)) (tail : List Nat) :
    Nat × Nat × Nat :=
  let h := update_stats_scalar head
  let m := mid.foldl
    (fun acc chunk =>
      (acc.1 + chunk.countP caseMaskGC,
       acc.2.1 + chunk.countP caseMaskN,
       acc.2.2 + (64 - chunk.countP isSkipByte)))
    h
  let t := update_stats_scalar tail
  (m.1 + t.1, m.2.1 + t.2.1, m.2.2 + t.2.2)

/-- The scalar classifier applied to one fixed-width chunk, in count form. -/
theorem update_stats_scalar_chunk (w : Nat) (chunk : List Nat) (hw : chunk.length = w) :
    update_stats_scalar chunk
    = (chunk.countP isGCByte, chunk.countP isNByte, w - chunk.countP isSkipByte) := by
  rw [update_stats_scalar_eq_counts, hw]

theorem countP_caseMaskGC_eq (chunk : List Nat) (hb : ∀ b ∈ chunk, b < 256) :
    chunk.countP caseMaskGC = chunk.countP isGCByte := by
  induction chunk with
  | nil => rfl
  | cons b rest ih =>
    simp only [List.countP_cons]
    rw [ih (fun x hx => hb x (List.mem_cons_of_mem b hx)),
      caseMaskGC_eq_isGCByte b (hb b (List.mem_cons_self b rest))]

theorem countP_caseMaskN_eq (chunk : List Nat) (hb : ∀ b ∈ chunk, b < 256) :
    chunk.countP caseMaskN = chunk.countP isNByte := by
  induction chunk with
  | nil => rfl
  | cons b rest ih =>
    simp only [List.countP_cons]
    rw [ih (fun x hx => hb x (List.mem_cons_of_mem b hx)),
      caseMaskN_eq_isNByte b (hb b (List.mem_cons_self b rest))]

/-- The middle-chunk fold of the AVX2/AVX512 kernels accumulates exactly the
scalar result of the concatenated chunks. -/
theorem simd_mid_fold (w : Nat) (mid : List (List Nat)) (acc : Nat × Nat × Nat)
    (hlen : ∀ ch ∈ mid, ch.length = w) (hb : ∀ ch ∈ mid, ∀ b ∈ ch, b < 256) :
    mid.foldl
      (fun acc chunk =>
        (acc.1 + chunk.countP caseMaskGC,
         acc.2.1 + chunk.countP caseMaskN,
         acc.2.2 + (w - chunk.countP isSkipByte)))
      acc
    = (acc.1 + (update_stats_scalar mid.flatten).1,
       acc.2.1 + (update_stats_scalar mid.flatten).2.1,
       acc.2.2 + (update_stats_scalar mid.flatten).2.2) := by
  induction mid generalizing acc with
  | nil => simp [update_stats_scalar]
  | cons chunk rest ih =>
    have hch := hlen chunk (List.mem_cons_self chunk rest)
    have hcb := hb chunk (List.mem_cons_self chunk rest)
    simp only [List.foldl_cons, List.flatten_cons]
    rw [ih _ (fun c hc => hlen c (List.mem_cons_of_mem chunk hc))
          (fun c hc => hb c (List.mem_cons_of_mem chunk hc)),
      update_stats_scalar_append,
      countP_caseMaskGC_eq chunk hcb, countP_caseMaskN_eq chunk hcb,
      update_stats_scalar_chunk w chunk hch]
    simp only [Prod.mk.injEq]
    omega

/-- For a valid `align_to` split the AVX2 kernel agrees with the scalar
classifier on the whole slice. -/
theorem update_stats_avx2_eq (head : List Nat) (mid : List (List Nat)) (tail : List Nat)
    (line : List Nat) (hsplit : head ++ mid.flatten ++ tail = line)
    (hlen : ∀ ch ∈ mid, ch.length = 32) (hb : ∀ ch ∈ mid, ∀ b ∈ ch, b < 256) :
    update_stats_avx2 head mid tail = update_stats_scalar line := by
  simp only [update_stats_avx2]
  rw [simd_mid_fold 32 mid _ hlen hb, ← hsplit, update_stats_scalar_append,
    update_stats_scalar_append]

/-- For a valid `align_to` split the AVX512 kernel agrees with the scalar
classifier on the whole slice. -/
theorem update_stats_avx512_eq (head : List Nat) (mid : List (List Nat)) (tail : List Nat)
    (line : List Nat) (hsplit : head ++ mid.flatten ++ tail = line)
    (hlen : ∀ ch ∈ mid, ch.length = 64) (hb : ∀ ch ∈ mid, ∀ b ∈ ch, b < 256) :
    update_stats_avx512 head mid tail = update_stats_scalar line := by
  simp only [update_stats_avx512]
  rw [simd_mid_fold 64 mid _ hlen hb, ← hsplit, update_stats_scalar_append,
    update_stats_scalar_append]

/-- Lane-wise 8-bit addition (`vaddq_u8`): each lane wraps modulo 256. -/
def laneAdd (acc inds : List Nat) : List Nat :=
  List.zipWith (fun a x => (a + x) % 256) acc inds

/-- Per-lane 0/1 indicator vector (`vandq_u8(mask, v_one)`): a comparison
mask lane (0xFF or 0x00) AND-ed with 1. -/
def laneIndicator (p : Nat → Bool) (chunk : List Nat) : List Nat :=
  chunk.map (fun b => if p b then 1 else 0)

/-- Inner loop of `update_stats_neon` (src/simd.rs:337-375): 16-lane 8-bit
accumulators for the GC, N and Skip masks, flushed into the wide totals via
`vaddlvq_u8` every 255 iterations (and once after the loop, where the
sequence-character total receives `iter_count * 16 - skipped_count`). -/
def neonLoop :
    List (List Nat) → List Nat → List Nat → List Nat → Nat → Nat × Nat × Nat →
    Nat × Nat × Nat
  | [], gcAcc, nAcc, skAcc, iter, acc =>
      (acc.1 + gcAcc.sum, acc.2.1 + nAcc.sum, acc.2.2 + (iter * 16 - skAcc.sum))
  | chunk :: rest, gcAcc, nAcc, skAcc, iter, acc =>
      let gcAcc2 := laneAdd gcAcc (laneIndicator caseMaskGC chunk)
      let nAcc2 := laneAdd nAcc (laneIndicator caseMaskN chunk)
      let skAcc2 := laneAdd skAcc (laneIndicator isSkipByte chunk)
      let iter2 := iter + 1
      if iter2 = 255 then
        neonLoop rest (List.replicate 16 0) (List.replicate 16 0) (List.replicate 16 0) 0
          (acc.1 + gcAcc2.sum, acc.2.1 + nAcc2.sum, acc.2.2 + (255 * 16 - skAcc2.sum))
      else neonLoop rest gcAcc2 nAcc2 skAcc2 iter2 acc

/-- Embedding of `update_stats_neon` (src/simd.rs:304-390) over an explicit
`align_to::<uint8x16_t>` split with 16-byte middle chunks. -/
def update_stats_neon (head : List Nat) (mid : List (List Nat)) (tail : List Nat) :
    Nat × Nat × Nat :=
  let h := update_stats_scalar head
  let m := neonLoop mid (List.replicate 16 0) (List.replicate 16 0) (List.replicate 16 0) 0 h
  let t := update_stats_scalar tail
  (m.1 + t.1, m.2.1 + t.2.1, m.2.2 + t.2.2)

theorem laneIndicator_sum (p : Nat → Bool) (chunk : List Nat) :
    (laneIndicator p chunk).sum = chunk.countP p := by
  induction chunk with
  | nil => rfl
  | cons b rest ih =>
    simp only [laneIndicator, List.map_cons, List.sum_cons, List.countP_cons] at *
    by_cases h : p b <;> simp [h, ih] <;> omega

theorem laneIndicator_le (p : Nat → Bool) (chunk : List Nat) :
    ∀ x ∈ laneIndicator p chunk, x ≤ 1 := by
  intro x hx
  simp only [laneIndicator, List.mem_map] at hx
  obtain ⟨b, _, hb⟩ := hx
  by_cases h : p b <;> simp [h] at hb <;> omega

theorem laneIndicator_length (p : Nat → Bool) (chunk : List Nat) :
    (laneIndicator p chunk).length = chunk.length := by
  simp [laneIndicator]

/-- When every accumulator lane is at most 254 and every increment is at
most 1, the wrap-around addition does not wrap: lane sums add. -/
theorem laneAdd_sum (acc inds : List Nat) (bound : Nat)
    (hlen : acc.length = inds.length) (ha : ∀ a ∈ acc, a ≤ bound)
    (hb : bound ≤ 254) (hi : ∀ x ∈ inds, x ≤ 1) :
    (laneAdd acc inds).sum = acc.sum + inds.sum := by
  induction acc generalizing inds with
  | nil =>
    cases inds with
    | nil => rfl
    | cons y ys => simp at hlen
  | cons a as ih =>
    cases inds with
    | nil => simp at hlen
    | cons y ys =>
      have hae : a ≤ bound := ha a (List.mem_cons_self a as)
      have hye : y ≤ 1 := hi y (List.mem_cons_self y ys)
      have hlen2 : as.length = ys.length := by simpa using hlen
      have hmod : (a + y) % 256 = a + y := Nat.mod_eq_of_lt (by omega)
      simp only [laneAdd, List.zipWith_cons_cons, List.sum_cons] at *
      rw [hmod, ih ys hlen2 (fun x hx => ha x (List.mem_cons_of_mem a hx))
            (fun x hx => hi x (List.mem_cons_of_mem y hx))]
      omega

theorem laneAdd_bound (acc : List Nat) (bound : Nat) :
    ∀ inds, (∀ a ∈ acc, a ≤ bound) → (∀ x ∈ inds, x ≤ 1) →
      ∀ x ∈ laneAdd acc inds, x ≤ bound + 1 := by
  induction acc with
  | nil => intro inds _ _ x hx; simp [laneAdd] at hx
  | cons a as ih =>
    intro inds ha hi x hx
    cases inds with
    | nil => simp [laneAdd] at hx
    | cons y ys =>
      simp only [laneAdd, List.zipWith_cons_cons, List.mem_cons] at hx
      rcases hx with hx | hx
      · have h1 : a ≤ bound := ha a (List.mem_cons_self a as)
        have h2 : y ≤ 1 := hi y (List.mem_cons_self y ys)
        have h3 : (a + y) % 256 ≤ a + y := Nat.mod_le _ _
        omega
      · exact ih ys (fun z hz => ha z (List.mem_cons_of_mem a hz))
          (fun z hz => hi z (List.mem_cons_of_mem y hz)) x hx

theorem laneAdd_length (acc inds : List Nat) (hlen : acc.length = inds.length) :
    (laneAdd acc inds).length = acc.length := by
  simp [laneAdd, hlen]

theorem sum_le_length_mul (l : List Nat) (bound : Nat) (h : ∀ x ∈ l, x ≤ bound) :
    l.sum ≤ l.length * bound := by
  induction l with
  | nil => simp
  | cons a as ih =>
    simp only [List.sum_cons, List.length_cons]
    have h1 : a ≤ bound := h a (List.mem_cons_self a as)
    have h2 := ih (fun x hx => h x (List.mem_cons_of_mem a hx))
    have h3 : (as.length + 1) * bound = as.length * bound + bound := by ring
    omega

/-- Lane sums of a 16-lane accumulator bounded laneswise by `bound` are at
most `16 * bound`. -/
theorem lane_sum_le (acc : List Nat) (bound : Nat) (hlen : acc.length = 16)
    (ha : ∀ a ∈ acc, a ≤ bound) : acc.sum ≤ 16 * bound := by
  have := sum_le_length_mul acc bound ha
  rw [hlen] at this
  exact this

/-- Correctness of the NEON accumulator loop: as long as each lane value is
bounded by the iteration count (so the 8-bit lanes never wrap before the
255-iteration flush), the loop computes the classifier counts of the
concatenated middle chunks. -/
theorem neonLoop_correct (mid : List (List Nat)) :
    ∀ gcAcc nAcc skAcc iter acc,
      (∀ ch ∈ mid, (ch : List Nat).length = 16) →
      (∀ ch ∈ mid, ∀ b ∈ ch, b < 256) →
      gcAcc.length = 16 → nAcc.length = 16 → skAcc.length = 16 →
      (∀ a ∈ gcAcc, a ≤ iter) → (∀ a ∈ nAcc, a ≤ iter) → (∀ a ∈ skAcc, a ≤ iter) →
      iter ≤ 254 →
      neonLoop mid gcAcc nAcc skAcc iter acc
      = (acc.1 + gcAcc.sum + mid.flatten.countP isGCByte,
         acc.2.1 + nAcc.sum + mid.flatten.countP isNByte,
         acc.2.2 + (iter * 16 - skAcc.sum)
           + (mid.flatten.length - mid.flatten.countP isSkipByte)) := by
  induction mid with
  | nil =>
    intro gcAcc nAcc skAcc iter acc _ _ _ _ _ _ _ _ _
    simp [neonLoop]
  | cons chunk rest ih =>
    intro gcAcc nAcc skAcc iter acc hmlen hmb hgl hnl hsl hgb hnb hsb hiter
    have hch : chunk.length = 16 := hmlen chunk (List.mem_cons_self chunk rest)
    have hcb : ∀ b ∈ chunk, b < 256 := hmb chunk (List.mem_cons_self chunk rest)
    have hrlen : ∀ ch ∈ rest, (ch : List Nat).length = 16 :=
      fun c hc => hmlen c (List.mem_cons_of_mem chunk hc)
    have hrb : ∀ ch ∈ rest, ∀ b ∈ ch, b < 256 :=
      fun c hc => hmb c (List.mem_cons_of_mem chunk hc)
    have hgcsum : (laneAdd gcAcc (laneIndicator caseMaskGC chunk)).sum
        = gcAcc.sum + chunk.countP caseMaskGC := by
      rw [laneAdd_sum gcAcc _ iter (by rw [hgl, laneIndicator_length, hch]) hgb hiter
        (laneIndicator_le _ _), laneIndicator_sum]
    have hnsum : (laneAdd nAcc (laneIndicator caseMaskN chunk)).sum
        = nAcc.sum + chunk.countP caseMaskN := by
      rw [laneAdd_sum nAcc _ iter (by rw [hnl, laneIndicator_length, hch]) hnb hiter
        (laneIndicator_le _ _), laneIndicator_sum]
    have hssum : (laneAdd skAcc (laneIndicator isSkipByte chunk)).sum
        = skAcc.sum + chunk.countP isSkipByte := by
      rw [laneAdd_sum skAcc _ iter (by rw [hsl, laneIndicator_length, hch]) hsb hiter
        (laneIndicator_le _ _), laneIndicator_sum]
    have hgcb2 := laneAdd_bound gcAcc iter (laneIndicator caseMaskGC chunk) hgb
      (laneIndicator_le _ _)
    have hnb2 := laneAdd_bound nAcc iter (laneIndicator caseMaskN chunk) hnb
      (laneIndicator_le _ _)
    have hsb2 := laneAdd_bound skAcc iter (laneIndicator isSkipByte chunk) hsb
      (laneIndicator_le _ _)
    have hgl2 : (laneAdd gcAcc (laneIndicator caseMaskGC chunk)).length = 16 := by
      rw [laneAdd_length _ _ (by rw [hgl, laneIndicator_length, hch]), hgl]
    have hnl2 : (laneAdd nAcc (laneIndicator caseMaskN chunk)).length = 16 := by
      rw [laneAdd_length _ _ (by rw [hnl, laneIndicator_length, hch]), hnl]
    have hsl2 : (laneAdd skAcc (laneIndicator isSkipByte chunk)).length = 16 := by
      rw [laneAdd_length _ _ (by rw [hsl, laneIndicator_length, hch]), hsl]
    have hskle : skAcc.sum ≤ 16 * iter := lane_sum_le skAcc iter hsl hsb
    have hcsk : chunk.countP isSkipByte ≤ 16 := by
      have := List.countP_le_length (p := isSkipByte) (l := chunk); omega
    have hrskle : rest.flatten.countP isSkipByte ≤ rest.flatten.length :=
      List.countP_le_length _
    have hgcM := countP_caseMaskGC_eq chunk hcb
    have hnM := countP_caseMaskN_eq chunk hcb
    simp only [neonLoop]
    by_cases h255 : iter + 1 = 255
    · simp only [h255, if_true]
      rw [ih _ _ _ 0 _ hrlen hrb (by simp) (by simp) (by simp)
        (by simp) (by simp) (by simp) (by omega)]
      simp only [List.flatten_cons, List.countP_append, List.length_append,
        List.sum_replicate, smul_eq_mul, Prod.mk.injEq]
      rw [hgcsum, hnsum, hssum, hgcM, hnM]
      have h16 : chunk.length = 16 := hch
      omega
    · simp only [if_neg h255]
      rw [ih _ _ _ (iter + 1) _ hrlen hrb hgl2 hnl2 hsl2 hgcb2 hnb2 hsb2 (by omega)]
      simp only [List.flatten_cons, List.countP_append, List.length_append,
        Prod.mk.injEq]
      rw [hgcsum, hnsum, hssum, hgcM, hnM]
      have h16 : chunk.length = 16 := hch
      omega

/-- For a valid `align_to` split the NEON kernel agrees with the scalar
classifier on the whole slice. -/
theorem update_stats_neon_eq (head : List Nat) (mid : List (List Nat)) (tail : List Nat)
    (line : List Nat) (hsplit : head ++ mid.flatten ++ tail = line)
    (hlen : ∀ ch ∈ mid, (ch : List Nat).length = 16)
    (hb : ∀ ch ∈ mid, ∀ b ∈ ch, b < 256) :
    update_stats_neon head mid tail = update_stats_scalar line := by
  simp only [update_stats_neon]
  rw [neonLoop_correct mid _ _ _ 0 _ hlen hb (by simp) (by simp) (by simp)
    (by simp) (by simp) (by simp) (by omega)]
  rw [← hsplit, update_stats_scalar_append, update_stats_scalar_append,
    update_stats_scalar_eq_counts mid.flatten]
  simp only [List.sum_replicate, smul_eq_mul, Prod.mk.injEq]
  omega

/-- Loop of `update_stats_sve2` (src/simd.rs:62-166): each iteration builds
the `whilelt` predicate over the first `min len vl` remaining bytes (`vl`
is the hardware vector byte count reported by `cntb`), counts via `cntp`
the active lanes equal to `G,g,C,c`, to `N,n` and to the six Skip bytes,
and advances by the number of processed bytes.  The fuel argument bounds
the iteration count; with `vl ≥ 1` a fuel of the slice length always
suffices (the fuel-exhausted branch is unreachable). -/
def sve2Go (vl : Nat) : Nat → List Nat → Nat × Nat × Nat → Nat × Nat × Nat
  | 0, _, acc => acc
  | _ + 1, [], acc => acc
  | fuel + 1, b :: rest, acc =>
      let line := b :: rest
      let processed := min line.length vl
      let chunk := line.take processed
      sve2Go vl fuel (line.drop processed)
        (acc.1 + chunk.countP isGCByte,
         acc.2.1 + chunk.countP isNByte,
         acc.2.2 + chunk.countP isSkipByte)

/-- Embedding of `update_stats_sve2` (src/simd.rs:62-166): runs the
predicated loop (accumulating GC, N and Skip counts) and returns
`(gc_total, n_total, line.len() - skipped_total)`. -/
def update_stats_sve2 (vl : Nat) (line : List Nat) : Nat × Nat × Nat :=
  let r := sve2Go vl line.length line (0, 0, 0)
  (r.1, r.2.1, line.length - r.2.2)

theorem sve2Go_correct (vl : Nat) (hvl : 0 < vl) :
    ∀ fuel line acc, (line : List Nat).length ≤ fuel →
      sve2Go vl fuel line acc
      = (acc.1 + line.countP isGCByte, acc.2.1 + line.countP isNByte,
         acc.2.2 + line.countP isSkipByte) := by
  intro fuel
  induction fuel with
  | zero =>
    intro line acc hlen
    have : line = [] := List.eq_nil_of_length_eq_zero (by omega)
    subst this
    simp [sve2Go]
  | succ fuel ih =>
    intro line acc hlen
    cases line with
    | nil => simp [sve2Go]
    | cons b rest =>
      simp only [sve2Go]
      rw [ih]
      · have hsplit := List.take_append_drop (min (b :: rest).length vl) (b :: rest)
        have h1 : ((b :: rest).take (min (b :: rest).length vl)).countP isGCByte
            + ((b :: rest).drop (min (b :: rest).length vl)).countP isGCByte
            = (b :: rest).countP isGCByte := by
          rw [← List.countP_append, hsplit]
        have h2 : ((b :: rest).take (min (b :: rest).length vl)).countP isNByte
            + ((b :: rest).drop (min (b :: rest).length vl)).countP isNByte
            = (b :: rest).countP isNByte := by
          rw [← List.countP_append, hsplit]
        have h3 : ((b :: rest).take (min (b :: rest).length vl)).countP isSkipByte
            + ((b :: rest).drop (min (b :: rest).length vl)).countP isSkipByte
            = (b :: rest).countP isSkipByte := by
          rw [← List.countP_append, hsplit]
        simp only [Prod.mk.injEq]
        omega
      · rw [List.length_drop]
        have hmin : 1 ≤ min (b :: rest).length vl := by
          simp only [List.length_cons]
          omega
        simp only [List.length_cons] at *
        omega

/-- For any positive hardware vector length the SVE2 kernel agrees with the
scalar classifier. -/
theorem update_stats_sve2_eq (vl : Nat) (hvl : 0 < vl) (line : List Nat) :
    update_stats_sve2 vl line = update_stats_scalar line := by
  simp only [update_stats_sve2]
  rw [sve2Go_correct vl hvl line.length line (0, 0, 0) (le_refl _),
    update_stats_scalar_eq_counts]
  simp

/-! ## Runtime dispatch (src/simd.rs:34-60)

`update_stats` selects an implementation from the `no_simd` flag and the
host CPU features.  The host environment is modelled by `SimdCaps`: the
CPU-feature probe results, the SVE vector byte count, and the
address-dependent `align_to` splits used by the fixed-width kernels. -/

/-- Host-environment model for the dispatcher: results of the runtime
feature probes, the SVE vector byte count (`cntb`), and the
`slice::align_to` splits for 64/32/16-byte vectors. -/
structure SimdCaps where
  avx512bw : Bool
  avx2 : Bool
  sve2 : Bool
  neon : Bool
  sveVl : Nat
  align64 : List Nat → List Nat × List (List Nat) × List Nat
  align32 : List Nat → List Nat × List (List Nat) × List Nat
  align16 : List Nat → List Nat × List (List Nat) × List Nat

/-- A capability model is valid when each `align_to` function is a genuine
split of its input into a head, fixed-width middle chunks and a tail, and
the SVE vector length is positive (hardware guarantees at least 16). -/
def ValidCaps (c : SimdCaps) : Prop :=
  (∀ l, (c.align64 l).1 ++ (c.align64 l).2.1.flatten ++ (c.align64 l).2.2 = l
    ∧ ∀ ch ∈ (c.align64 l).2.1, (ch : List Nat).length = 64)
  ∧ (∀ l, (c.align32 l).1 ++ (c.align32 l).2.1.flatten ++ (c.align32 l).2.2 = l
    ∧ ∀ ch ∈ (c.align32 l).2.1, (ch : List Nat).length = 32)
  ∧ (∀ l, (c.align16 l).1 ++ (c.align16 l).2.1.flatten ++ (c.align16 l).2.2 = l
    ∧ ∀ ch ∈ (c.align16 l).2.1, (ch : List Nat).length = 16)
  ∧ 0 < c.sveVl

/-- Embedding of the dispatching entry point `update_stats`
(src/simd.rs:34-60): the `no_simd` flag forces the scalar path; otherwise
the first detected CPU feature (AVX512BW, then AVX2 on x86; SVE2, then
NEON on aarch64) selects the kernel, falling back to the scalar loop. -/
def update_stats (caps : SimdCaps) (line : List Nat) (no_simd : Bool) : Nat × Nat × Nat :=
  if no_simd then update_stats_scalar line
  else if caps.avx512bw then
    let s := caps.align64 line
    update_stats_avx512 s.1 s.2.1 s.2.2
  else if caps.avx2 then
    let s := caps.align32 line
    update_stats_avx2 s.1 s.2.1 s.2.2
  else if caps.sve2 then update_stats_sve2 caps.sveVl line
  else if caps.neon then
    let s := caps.align16 line
    update_stats_neon s.1 s.2.1 s.2.2
  else update_stats_scalar line

/-- Dispatcher refinement: for every valid host model, every byte slice and
either value of the `no_simd` flag, `update_stats` returns exactly the
scalar classifier's triple. -/
theorem update_stats_eq_scalar (caps : SimdCaps) (hcaps : ValidCaps caps)
    (line : List Nat) (hb : ∀ b ∈ line, b < 256) (no_simd : Bool) :
    update_stats caps line no_simd = update_stats_scalar line := by
  obtain ⟨h64, h32, h16, hvl⟩ := hcaps
  unfold update_stats
  by_cases hn : no_simd
  · simp [hn]
  · simp only [hn, if_false, Bool.false_eq_true]
    by_cases h512 : caps.avx512bw
    · simp only [h512, if_true]
      exact update_stats_avx512_eq _ _ _ line (h64 line).1 (h64 line).2
        (fun ch hc b hbc => hb b (by
          have := (h64 line).1
          rw [← this]
          simp only [List.mem_append]
          exact Or.inl (Or.inr (List.mem_flatten.mpr ⟨ch, hc, hbc⟩))))
    · simp only [h512, Bool.false_eq_true, if_false]
      by_cases h2 : caps.avx2
      · simp only [h2, if_true]
        exact update_stats_avx2_eq _ _ _ line (h32 line).1 (h32 line).2
          (fun ch hc b hbc => hb b (by
            have := (h32 line).1
            rw [← this]
            simp only [List.mem_append]
            exact Or.inl (Or.inr (List.mem_flatten.mpr ⟨ch, hc, hbc⟩))))
      · simp only [h2, Bool.false_eq_true, if_false]
        by_cases hs : caps.sve2
        · simp only [hs, if_true]
          exact update_stats_sve2_eq caps.sveVl hvl line
        · simp only [hs, Bool.false_eq_true, if_false]
          by_cases hne : caps.neon
          · simp only [hne, if_true]
            exact update_stats_neon_eq _ _ _ line (h16 line).1 (h16 line).2
              (fun ch hc b hbc => hb b (by
                have := (h16 line).1
                rw [← this]
                simp only [List.mem_append]
                exact Or.inl (Or.inr (List.mem_flatten.mpr ⟨ch, hc, hbc⟩))))
          · simp only [hne, Bool.false_eq_true, if_false]

/-! ## Streaming parser and stats reducer (src/process_files.rs) -/

/-- Model of `usize::MAX`, the sentinel initial value of `shortest_contig`. -/
def USIZE_MAX : Nat := 2 ^ 64 - 1

/-- Embedding of the `AnalysisResults` struct (src/process_files.rs:159-174). -/
@[ext]
structure AnalysisResults where
  filename : String
  total_length : Nat
  sequence_count : Nat
  gc_count : Nat
  n_count : Nat
  n25 : Nat
  n25_sequence_count : Nat
  n50 : Nat
  n50_sequence_count : Nat
  n75 : Nat
  n75_sequence_count : Nat
  largest_contig : Nat
  shortest_contig : Nat
deriving Repr, DecidableEq

/-- Embedding of `AnalysisResults::new` (src/process_files.rs:177-183):
all counters start at zero except the `shortest_contig` sentinel. -/
def AnalysisResults.new (filename : String) : AnalysisResults :=
  { filename := filename
    total_length := 0
    sequence_count := 0
    gc_count := 0
    n_count := 0
    n25 := 0
    n25_sequence_count := 0
    n50 := 0
    n50_sequence_count := 0
    n75 := 0
    n75_sequence_count := 0
    largest_contig := 0
    shortest_contig := USIZE_MAX }

/-- Embedding of the `FastaParser` state (src/process_files.rs:68-74). -/
@[ext]
structure FastaParser where
  lengths : List Nat
  current_sequence_length : Nat
  in_header : Bool
  last_char_was_newline : Bool
  started : Bool
deriving Repr, DecidableEq

/-- Embedding of `FastaParser::new` (src/process_files.rs:77-85):
`last_char_was_newline` starts true so a `>` at offset 0 is a header. -/
def FastaParser.new : FastaParser :=
  { lengths := []
    current_sequence_length := 0
    in_header := false
    last_char_was_newline := true
    started := false }

/-- Model of `memchr::memchr`: index of the first occurrence of `c`. -/
def memchr (c : Nat) : List Nat → Option Nat
  | [] => none
  | b :: rest => if b = c then some 0 else (memchr c rest).map (· + 1)

/-- Embedding of the inner `while let` scan of `FastaParser::feed`
(src/process_files.rs:120-134): starting from `search_pos`, repeatedly
`memchr` a newline; if it is followed by `>` return its position, if it is
the last byte of the buffer stop (`None`, the check resumes in the next
buffer), otherwise continue after it.  The fuel argument bounds the number
of `memchr` rounds; `data.length - searchPos` rounds always suffice. -/
def findSeqBoundary (data : List Nat) : Nat → Nat → Option Nat
  | _, 0 => none
  | searchPos, fuel + 1 =>
    match memchr 10 (data.drop searchPos) with
    | none => none
    | some pos =>
      let actualPos := searchPos + pos
      if actualPos + 1 < data.length then
        if data.getD (actualPos + 1) 0 = 62 then some actualPos
        else findSeqBoundary data (actualPos + 1) fuel
      else none

/-- Embedding of the `while consumed < len` loop of `FastaParser::feed`
(src/process_files.rs:87-149).  The fuel argument bounds the number of
loop iterations; since every iteration strictly advances `consumed`, a
fuel of `data.length + 1` always suffices (`feedGo_isSome`).  `none`
models an internal failure: fuel exhaustion (a non-advancing iteration)
or an out-of-bounds index of the two unguarded slice accesses
(`data[consumed]`, `data[len - 1]`).  The source computes one
`(chunk, chunk_end, new_last_newline)` triple by matching on
`next_header_start` and then runs a shared tail; here the tail
(`if self.started` classify-and-accumulate, advance, store the newline
flag) is inlined into both arms of that match. -/
def feedGo (caps : SimdCaps) (no_simd : Bool) (data : List Nat) :
    Nat → FastaParser → AnalysisResults → Nat → Option (FastaParser × AnalysisResults)
  | _, _, _, 0 => none
  | consumed, st, res, fuel + 1 =>
    if consumed < data.length then
      if st.in_header then
        match memchr 10 (data.drop consumed) with
        | some pos =>
            feedGo caps no_simd data (consumed + pos + 1)
              { st with in_header := false, last_char_was_newline := true } res fuel
        | none =>
            feedGo caps no_simd data data.length
              { st with last_char_was_newline := false } res fuel
      else
        match data[consumed]? with
        | none => none
        | some b =>
          if st.last_char_was_newline = true ∧ b = 62 then
            let st2 :=
              if st.started then
                { st with lengths := st.lengths ++ [st.current_sequence_length],
                          current_sequence_length := 0 }
              else st
            feedGo caps no_simd data (consumed + 1)
              { st2 with started := true, in_header := true, last_char_was_newline := false }
              { res with sequence_count := res.sequence_count + 1 } fuel
          else
            match findSeqBoundary data consumed (data.length - consumed) with
            | some p =>
              if st.started then
                let r := update_stats caps ((data.drop consumed).take (p - consumed)) no_simd
                feedGo caps no_simd data (p + 1)
                  { st with
                      current_sequence_length := st.current_sequence_length + r.2.2,
                      last_char_was_newline := true }
                  { res with gc_count := res.gc_count + r.1,
                             n_count := res.n_count + r.2.1 }
                  fuel
              else
                feedGo caps no_simd data (p + 1)
                  { st with last_char_was_newline := true } res fuel
            | none =>
              match data[data.length - 1]? with
              | none => none
              | some lastB =>
                if st.started then
                  let r := update_stats caps
                    ((data.drop consumed).take (data.length - consumed)) no_simd
                  feedGo caps no_simd data data.length
                    { st with
                        current_sequence_length := st.current_sequence_length + r.2.2,
                        last_char_was_newline := decide (lastB = 10) }
                    { res with gc_count := res.gc_count + r.1,
                               n_count := res.n_count + r.2.1 }
                    fuel
                else
                  feedGo caps no_simd data data.length
                    { st with last_char_was_newline := decide (lastB = 10) } res fuel
    else some (st, res)

/-- Total wrapper for `FastaParser::feed`: runs the loop with sufficient
fuel (`feedGo_isSome` proves the default is never needed). -/
def FastaParser.feed (caps : SimdCaps) (no_simd : Bool) (st : FastaParser)
    (res : AnalysisResults) (data : List Nat) : FastaParser × AnalysisResults :=
  (feedGo caps no_simd data 0 st res (data.length + 1)).getD (st, res)

/-- Descending in-place sort `lengths.sort_unstable_by(|a, b| b.cmp(a))`
(src/process_files.rs:201).  On `Nat` the descending order determines the
sorted list uniquely from the multiset, so any correct sort is
extensionally the Rust one. -/
def sortDesc (l : List Nat) : List Nat := List.insertionSort (· ≥ ·) l

/-- The guarded N25 assignment of the scan (src/process_files.rs:207-210). -/
def nstatUpd25 (length i total cum2 : Nat) (res : AnalysisResults) : AnalysisResults :=
  if res.n25 = 0 ∧ total / 4 ≤ cum2 then
    { res with n25 := length, n25_sequence_count := i + 1 }
  else res

/-- The guarded N50 assignment of the scan (src/process_files.rs:211-214). -/
def nstatUpd50 (length i total cum2 : Nat) (res : AnalysisResults) : AnalysisResults :=
  if res.n50 = 0 ∧ total / 2 ≤ cum2 then
    { res with n50 := length, n50_sequence_count := i + 1 }
  else res

/-- Embedding of the N25/N50/N75 scan of `AnalysisResults::calculate_stats`
(src/process_files.rs:205-220): walk the descending lengths keeping a
cumulative sum; each statistic is assigned at the first element where the
sum reaches its threshold (guarded by the field still being 0), and the
loop breaks when N75 is assigned. -/
def nstatLoop : List Nat → Nat → Nat → Nat → AnalysisResults → AnalysisResults
  | [], _, _, _, res => res
  | length :: rest, total, i, cum, res =>
    let cum2 := cum + length
    let res2 := nstatUpd50 length i total cum2 (nstatUpd25 length i total cum2 res)
    if res2.n75 = 0 ∧ total * 3 / 4 ≤ cum2 then
      { res2 with n75 := length, n75_sequence_count := i + 1 }
    else nstatLoop rest total (i + 1) cum2 res2

/-- Embedding of `AnalysisResults::calculate_stats`
(src/process_files.rs:193-221): on a non-empty length list, set the total,
overwrite `sequence_count` with the number of recorded lengths, sort
descending, take the extremes (`first`/`last` with the `unwrap_or`
defaults of the source) and run the N-statistic scan. -/
def AnalysisResults.calculate_stats (res : AnalysisResults) (lengths : List Nat) :
    AnalysisResults :=
  if lengths = [] then res
  else
    let total_length := lengths.sum
    let sorted := sortDesc lengths
    let res2 := { res with
      total_length := total_length
      sequence_count := lengths.length
      largest_contig := sorted.headD 0
      shortest_contig := sorted.getLastD USIZE_MAX }
    nstatLoop sorted total_length 0 0 res2

/-- The record-length list passed to the reducer by `FastaParser::finish`
(src/process_files.rs:151-156): the trailing record is pushed only when it
is non-empty. -/
def FastaParser.finalLengths (st : FastaParser) : List Nat :=
  if 0 < st.current_sequence_length then st.lengths ++ [st.current_sequence_length]
  else st.lengths

/-- Embedding of `FastaParser::finish` (src/process_files.rs:151-156). -/
def FastaParser.finish (st : FastaParser) (res : AnalysisResults) : AnalysisResults :=
  res.calculate_stats st.finalLengths

/-- Embedding of the `process_reader`/`process_buffer` pipeline
(src/process_files.rs:400-437): feed every buffer of the stream in order
into one parser, then finish.  `none` propagates a (provably unreachable)
parser-internal failure. -/
def processChunks (caps : SimdCaps) (no_simd : Bool) (filename : String)
    (chunks : List (List Nat)) : Option AnalysisResults :=
  (chunks.foldlM
      (fun acc chunk => feedGo caps no_simd chunk 0 acc.1 acc.2 (chunk.length + 1))
      (FastaParser.new, AnalysisResults.new filename)).map
    (fun acc => acc.1.finish acc.2)

/-! ## Byte-at-a-time semantics of the parser

`FastaParser::feed` consumes its buffer in bulk spans (header scans and
sequence spans).  To reason about chunking we show that the loop is
equivalent to folding a one-byte transition function over the buffer. -/

/-- One-byte transition of the parser state machine: the effect of
`FastaParser::feed` on a single byte. -/
def stepByte (p : FastaParser × AnalysisResults) (b : Nat) :
    FastaParser × AnalysisResults :=
  let st := p.1
  let res := p.2
  if st.in_header then
    if b = 10 then ({ st with in_header := false, last_char_was_newline := true }, res)
    else ({ st with last_char_was_newline := false }, res)
  else if st.last_char_was_newline = true ∧ b = 62 then
    let st2 :=
      if st.started then
        { st with lengths := st.lengths ++ [st.current_sequence_length],
                  current_sequence_length := 0 }
      else st
    ({ st2 with started := true, in_header := true, last_char_was_newline := false },
     { res with sequence_count := res.sequence_count + 1 })
  else
    (if st.started then
      { st with
          current_sequence_length := st.current_sequence_length + (1 - (LOOKUP b >>> 2)),
          last_char_was_newline := decide (b = 10) }
     else { st with last_char_was_newline := decide (b = 10) },
     if st.started then
      { res with gc_count := res.gc_count + (LOOKUP b &&& 1),
                 n_count := res.n_count + ((LOOKUP b &&& 2) >>> 1) }
     else res)

/-- Folding the one-byte transition over a buffer. -/
def runBytes (p : FastaParser × AnalysisResults) (data : List Nat) :
    FastaParser × AnalysisResults :=
  data.foldl stepByte p

theorem runBytes_append (p : FastaParser × AnalysisResults) (a b : List Nat) :
    runBytes p (a ++ b) = runBytes (runBytes p a) b :=
  List.foldl_append _ _ _ _

theorem runBytes_nil (p : FastaParser × AnalysisResults) : runBytes p [] = p := rfl

/-! ### memchr specification -/

theorem memchr_none (c : Nat) (l : List Nat) :
    memchr c l = none ↔ ∀ b ∈ l, b ≠ c := by
  induction l with
  | nil => simp [memchr]
  | cons b rest ih =>
    by_cases h : b = c
    · simp [memchr, h]
    · simp [memchr, h, ih]

theorem memchr_some_lt (c : Nat) (l : List Nat) (i : Nat) (h : memchr c l = some i) :
    i < l.length := by
  induction l generalizing i with
  | nil => simp [memchr] at h
  | cons b rest ih =>
    by_cases hb : b = c
    · simp [memchr, hb] at h
      simp only [List.length_cons]
      omega
    · simp [memchr, hb] at h
      obtain ⟨j, hj, hji⟩ := h
      have := ih j hj
      simp only [List.length_cons]
      omega

theorem memchr_some_getElem (c : Nat) (l : List Nat) (i : Nat)
    (h : memchr c l = some i) : l[i]? = some c := by
  induction l generalizing i with
  | nil => simp [memchr] at h
  | cons b rest ih =>
    by_cases hb : b = c
    · simp [memchr, hb] at h
      have h0 : i = 0 := by omega
      subst h0 hb
      simp
    · simp [memchr, hb] at h
      obtain ⟨j, hj, hji⟩ := h
      subst hji
      simpa using ih j hj

theorem memchr_some_min (c : Nat) (l : List Nat) (i : Nat)
    (h : memchr c l = some i) : ∀ j < i, l[j]? ≠ some c := by
  induction l generalizing i with
  | nil => simp [memchr] at h
  | cons b rest ih =>
    by_cases hb : b = c
    · simp [memchr, hb] at h
      omega
    · simp [memchr, hb] at h
      obtain ⟨j, hj, hji⟩ := h
      subst hji
      intro k hk
      cases k with
      | zero =>
        simp only [List.getElem?_cons_zero]
        intro hbc
        exact hb (by injection hbc)
      | succ k2 =>
        simp only [List.getElem?_cons_succ]
        exact ih j hj k2 (by omega)

/-! ### Boundary-scan specification -/

/-- A record boundary inside a buffer: a newline byte immediately followed
by a `>` byte (both within bounds). -/
def IsBoundary (data : List Nat) (q : Nat) : Prop :=
  data[q]? = some 10 ∧ data[q + 1]? = some 62

theorem getD_eq_some (data : List Nat) (i : Nat) (hi : i < data.length) (v : Nat)
    (h : data.getD i 0 = v) : data[i]? = some v := by
  rw [List.getD_eq_getElem?_getD] at h
  rw [List.getElem?_eq_getElem hi] at h ⊢
  simpa using h

/-- Soundness of the boundary scan: a hit is a boundary, at or after the
start position, and minimal among boundaries at or after it. -/
theorem findSeqBoundary_some (data : List Nat) :
    ∀ fuel searchPos p, findSeqBoundary data searchPos fuel = some p →
      searchPos ≤ p ∧ IsBoundary data p ∧
        ∀ q, searchPos ≤ q → q < p → ¬IsBoundary data q := by
  intro fuel
  induction fuel with
  | zero => intro searchPos p h; simp [findSeqBoundary] at h
  | succ fuel ih =>
    intro searchPos p h
    simp only [findSeqBoundary] at h
    cases hm : memchr 10 (data.drop searchPos) with
    | none => rw [hm] at h; simp at h
    | some pos =>
      rw [hm] at h
      have h10 : data[searchPos + pos]? = some 10 := by
        have := memchr_some_getElem 10 _ pos hm
        rwa [List.getElem?_drop] at this
      have hmin10 : ∀ q, searchPos ≤ q → q < searchPos + pos → data[q]? ≠ some 10 := by
        intro q hq1 hq2 hq3
        have := memchr_some_min 10 _ pos hm (q - searchPos) (by omega)
        rw [List.getElem?_drop] at this
        have heq : searchPos + (q - searchPos) = q := by omega
        rw [heq] at this
        exact this hq3
      by_cases hlt : searchPos + pos + 1 < data.length
      · simp only [hlt, if_true] at h
        by_cases h62 : data.getD (searchPos + pos + 1) 0 = 62
        · simp only [h62, if_true, Option.some.injEq] at h
          subst h
          refine ⟨by omega, ⟨h10, getD_eq_some data _ hlt 62 h62⟩, ?_⟩
          intro q hq1 hq2 hb
          exact hmin10 q hq1 (by omega) hb.1
        · simp only [h62, if_false] at h
          obtain ⟨hle, hbd, hmin⟩ := ih (searchPos + pos + 1) p h
          refine ⟨by omega, hbd, ?_⟩
          intro q hq1 hq2 hb
          by_cases hcase : q < searchPos + pos
          · exact hmin10 q hq1 hcase hb.1
          · by_cases hcase2 : q = searchPos + pos
            · subst hcase2
              have := hb.2
              rw [List.getElem?_eq_getElem hlt] at this
              apply h62
              rw [List.getD_eq_getElem?_getD, List.getElem?_eq_getElem hlt]
              simpa using this
            · exact hmin q (by omega) hq2 hb
      · simp only [hlt, if_false] at h
        exact absurd h (by simp)

/-- Completeness of the boundary scan: with sufficient fuel, a miss means
there is no boundary at or after the start position. -/
theorem findSeqBoundary_none (data : List Nat) :
    ∀ fuel searchPos, findSeqBoundary data searchPos fuel = none →
      data.length - searchPos ≤ fuel →
      ∀ q, searchPos ≤ q → ¬IsBoundary data q := by
  intro fuel
  induction fuel with
  | zero =>
    intro searchPos _ hfuel q hq hb
    have h62 := hb.2
    have : q + 1 < data.length := by
      by_contra hcon
      rw [List.getElem?_eq_none (by omega)] at h62
      simp at h62
    omega
  | succ fuel ih =>
    intro searchPos h hfuel q hq hb
    simp only [findSeqBoundary] at h
    cases hm : memchr 10 (data.drop searchPos) with
    | none =>
      have hno10 := (memchr_none 10 _).mp hm
      have hq10 := hb.1
      have hqlen : q < data.length := by
        by_contra hcon
        rw [List.getElem?_eq_none (by omega)] at hq10
        simp at hq10
      have : data[q]? ≠ some 10 := by
        intro hcontra
        have hmem : (10 : Nat) ∈ data.drop searchPos := by
          rw [List.mem_iff_getElem?]
          refine ⟨q - searchPos, ?_⟩
          rw [List.getElem?_drop]
          have heq : searchPos + (q - searchPos) = q := by omega
          rw [heq]
          exact hcontra
        exact hno10 10 hmem rfl
      exact this hq10
    | some pos =>
      rw [hm] at h
      have hposlt := memchr_some_lt 10 _ pos hm
      rw [List.length_drop] at hposlt
      have h10 : data[searchPos + pos]? = some 10 := by
        have := memchr_some_getElem 10 _ pos hm
        rwa [List.getElem?_drop] at this
      have hmin10 : ∀ r, searchPos ≤ r → r < searchPos + pos → data[r]? ≠ some 10 := by
        intro r hr1 hr2 hr3
        have := memchr_some_min 10 _ pos hm (r - searchPos) (by omega)
        rw [List.getElem?_drop] at this
        have heq : searchPos + (r - searchPos) = r := by omega
        rw [heq] at this
        exact this hr3
      by_cases hlt : searchPos + pos + 1 < data.length
      · simp only [hlt, if_true] at h
        by_cases h62 : data.getD (searchPos + pos + 1) 0 = 62
        · have h62b := h62
          rw [List.getD_eq_getElem?_getD] at h62b
          simp [h62b] at h
        · simp only [h62, if_false] at h
          by_cases hcase : q < searchPos + pos
          · exact hmin10 q hq hcase hb.1
          · by_cases hcase2 : q = searchPos + pos
            · subst hcase2
              have := hb.2
              rw [List.getElem?_eq_getElem hlt] at this
              apply h62
              rw [List.getD_eq_getElem?_getD, List.getElem?_eq_getElem hlt]
              simpa using this
            · exact ih (searchPos + pos + 1) h (by omega) q (by omega) hb
      · simp only [hlt, if_false] at h
        by_cases hcase : q < searchPos + pos
        · exact hmin10 q hq hcase hb.1
        · have h62 := hb.2
          have : q + 1 < data.length := by
            by_contra hcon
            rw [List.getElem?_eq_none (by omega)] at h62
            simp at h62
          omega

/-! ### Span lemmas: bulk steps of `feed` equal byte-by-byte folding -/

theorem getLastD_irrel (l : List Nat) (hne : l ≠ []) (d1 d2 : Nat) :
    l.getLastD d1 = l.getLastD d2 := by
  induction l generalizing d1 d2 with
  | nil => exact absurd rfl hne
  | cons a t ih =>
    cases t with
    | nil => rfl
    | cons c t2 =>
      show (c :: t2).getLastD a = (c :: t2).getLastD a
      rfl

/-- Consuming a header span that ends at its newline: every byte before the
newline keeps the parser in the header state, and the newline leaves it. -/
theorem runBytes_header_hit (res : AnalysisResults) (hdr : List Nat) :
    ∀ st : FastaParser, st.in_header = true → (∀ b ∈ hdr, b ≠ 10) →
      runBytes (st, res) (hdr ++ [10])
      = ({ st with in_header := false, last_char_was_newline := true }, res) := by
  induction hdr with
  | nil =>
    intro st hih _
    simp [runBytes, stepByte, hih]
  | cons b rest ih =>
    intro st hih hno
    have hb : b ≠ 10 := hno b (List.mem_cons_self b rest)
    show runBytes (stepByte (st, res) b) (rest ++ [10]) = _
    have hstep : stepByte (st, res) b = ({ st with last_char_was_newline := false }, res) := by
      simp [stepByte, hih, hb]
    rw [hstep, ih _ (by simpa using hih) (fun x hx => hno x (List.mem_cons_of_mem b hx))]

/-- Consuming a header span with no newline: the parser stays in the header
state and records that the last byte was not a newline. -/
theorem runBytes_header_miss (res : AnalysisResults) (hdr : List Nat) :
    ∀ st : FastaParser, st.in_header = true → (∀ b ∈ hdr, b ≠ 10) → hdr ≠ [] →
      runBytes (st, res) hdr = ({ st with last_char_was_newline := false }, res) := by
  induction hdr with
  | nil => intro st _ _ hne; exact absurd rfl hne
  | cons b rest ih =>
    intro st hih hno _
    have hb : b ≠ 10 := hno b (List.mem_cons_self b rest)
    show runBytes (stepByte (st, res) b) rest = _
    have hstep : stepByte (st, res) b = ({ st with last_char_was_newline := false }, res) := by
      simp [stepByte, hih, hb]
    rw [hstep]
    cases hr : rest with
    | nil => rfl
    | cons c t =>
      rw [← hr, ih _ (by simpa using hih) (fun x hx => hno x (List.mem_cons_of_mem b hx))
        (by rw [hr]; simp)]

/-- Consuming a sequence span containing no record boundary: the span is
classified in bulk (when `started`), and the final newline flag reflects
the last byte of the span. -/
theorem runBytes_seq_span (S : List Nat) :
    ∀ (st : FastaParser) (res : AnalysisResults),
      st.in_header = false →
      ¬(st.last_char_was_newline = true ∧ S[0]? = some 62) →
      (∀ i, S[i]? = some 10 → S[i + 1]? ≠ some 62) →
      S ≠ [] →
      runBytes (st, res) S
      = ({ st with
            current_sequence_length := st.current_sequence_length
              + (if st.started then (update_stats_scalar S).2.2 else 0),
            last_char_was_newline := decide (S.getLastD 0 = 10) },
         { res with
            gc_count := res.gc_count + (if st.started then (update_stats_scalar S).1 else 0),
            n_count := res.n_count
              + (if st.started then (update_stats_scalar S).2.1 else 0) }) := by
  induction S with
  | nil => intro st res _ _ _ hne; exact absurd rfl hne
  | cons b rest ih =>
    intro st res hih hhead hpairs _
    have hnothdr : ¬(st.last_char_was_newline = true ∧ b = 62) := by
      intro ⟨h1, h2⟩
      exact hhead ⟨h1, by simp [h2]⟩
    show runBytes (stepByte (st, res) b) rest = _
    have hstep : stepByte (st, res) b
        = (if st.started then
            { st with
                current_sequence_length :=
                  st.current_sequence_length + (1 - (LOOKUP b >>> 2)),
                last_char_was_newline := decide (b = 10) }
           else { st with last_char_was_newline := decide (b = 10) },
           if st.started then
            { res with gc_count := res.gc_count + (LOOKUP b &&& 1),
                       n_count := res.n_count + ((LOOKUP b &&& 2) >>> 1) }
           else res) := by
      simp [stepByte, hih, hnothdr]
    rw [hstep]
    cases hr : rest with
    | nil =>
      simp only [runBytes, List.foldl_nil]
      rw [update_stats_scalar_cons]
      by_cases hs : st.started <;>
        simp [hs, update_stats_scalar, List.getLastD]
    | cons c t =>
      rw [← hr]
      have hrne : rest ≠ [] := by rw [hr]; simp
      have hpairs2 : ∀ i, rest[i]? = some 10 → rest[i + 1]? ≠ some 62 := by
        intro i h1 h2
        exact hpairs (i + 1) (by simpa using h1) (by simpa using h2)
      have hhead2 : ∀ st2 : FastaParser, st2.last_char_was_newline = decide (b = 10) →
          ¬(st2.last_char_was_newline = true ∧ rest[0]? = some 62) := by
        intro st2 hlast ⟨h1, h2⟩
        rw [hlast] at h1
        have hb10 : b = 10 := by simpa using h1
        exact hpairs 0 (by simp [hb10]) (by simpa using h2)
      have hlastd : (b :: rest).getLastD 0 = rest.getLastD 0 := by
        rw [List.getLastD_cons]
        exact getLastD_irrel rest hrne b 0
      by_cases hs : st.started
      · simp only [hs, if_true]
        rw [ih _ _ (by simp [hih]) (hhead2 _ rfl) hpairs2 hrne]
        rw [update_stats_scalar_cons]
        simp only [hs, if_true, hlastd]
        refine Prod.ext ?_ ?_
        · apply FastaParser.ext <;> simp <;> omega
        · apply AnalysisResults.ext <;> simp <;> omega
      · simp only [hs, if_false, Bool.false_eq_true]
        rw [ih _ _ (by simp [hih]) (hhead2 _ rfl) hpairs2 hrne]
        simp only [hs, if_false, hlastd, Bool.false_eq_true]

/-! ### Main feed-loop equivalence -/

theorem drop_decompose (data : List Nat) (a b : Nat) (h1 : a ≤ b) (h2 : b ≤ data.length) :
    data.drop a = (data.drop a).take (b - a) ++ data.drop b := by
  have h3 := (List.take_append_drop (b - a) (data.drop a)).symm
  rw [List.drop_drop] at h3
  have hy : a + (b - a) = b := by omega
  rw [hy] at h3
  exact h3

theorem getElem?_drop_take (data : List Nat) (a k i : Nat) (hi : i < k) :
    ((data.drop a).take k)[i]? = data[a + i]? := by
  rw [List.getElem?_take]
  simp [hi, List.getElem?_drop]

theorem take_mem_ne_ten (data : List Nat) (a pos : Nat)
    (hmin : ∀ j < pos, (data.drop a)[j]? ≠ some 10) :
    ∀ b ∈ (data.drop a).take pos, b ≠ 10 := by
  intro b hb
  rw [List.mem_iff_getElem?] at hb
  obtain ⟨i, hi⟩ := hb
  rw [List.getElem?_take] at hi
  by_cases hik : i < pos
  · rw [if_pos hik] at hi
    intro hb10
    subst hb10
    exact hmin i hik hi
  · rw [if_neg hik] at hi
    simp at hi

/-- The feed loop equals byte-at-a-time folding: with enough fuel, and a
classifier dispatch that agrees with the scalar classifier on every slice
of the buffer, `feedGo` consumes the rest of the buffer exactly as
`runBytes` does. -/
theorem feedGo_eq_runBytes (caps : SimdCaps) (no_simd : Bool) (data : List Nat)
    (hcl : ∀ k1 k2 : Nat, update_stats caps ((data.drop k1).take k2) no_simd
            = update_stats_scalar ((data.drop k1).take k2)) :
    ∀ fuel consumed st res, consumed ≤ data.length → data.length - consumed < fuel →
      feedGo caps no_simd data consumed st res fuel
      = some (runBytes (st, res) (data.drop consumed)) := by
  intro fuel
  induction fuel with
  | zero => intro consumed st res hcle hfuel; omega
  | succ fuel ih =>
    intro consumed st res hcle hfuel
    by_cases hc : consumed < data.length
    case neg =>
      have hdrop : data.drop consumed = [] := List.drop_eq_nil_of_le (by omega)
      simp only [feedGo, if_neg hc, hdrop, runBytes, List.foldl_nil]
    case pos =>
      simp only [feedGo, if_pos hc]
      by_cases hih : st.in_header
      · simp only [hih, if_true]
        split
        next pos hm =>
          have hple := memchr_some_lt 10 _ pos hm
          rw [List.length_drop] at hple
          have h10 : data[consumed + pos]? = some 10 := by
            have := memchr_some_getElem 10 _ pos hm
            rwa [List.getElem?_drop] at this
          have hmin := memchr_some_min 10 _ pos hm
          have hdec := drop_decompose data consumed (consumed + pos + 1) (by omega) (by omega)
          have hspan : (data.drop consumed).take (consumed + pos + 1 - consumed)
              = (data.drop consumed).take pos ++ [10] := by
            have heq : consumed + pos + 1 - consumed = pos + 1 := by omega
            rw [heq, List.take_succ]
            congr 1
            rw [List.getElem?_drop, h10]
            rfl
          have hno10 := take_mem_ne_ten data consumed pos hmin
          rw [ih (consumed + pos + 1) _ _ (by omega) (by omega)]
          congr 1
          conv_rhs => rw [hdec]
          rw [runBytes_append, hspan, runBytes_header_hit res _ st hih hno10]
        next hm =>
          have hno10b := (memchr_none 10 _).mp hm
          have hlen : (data.drop consumed).length = data.length - consumed :=
            List.length_drop _ _
          have hne : data.drop consumed ≠ [] := by
            intro hcon
            rw [hcon] at hlen
            simp at hlen
            omega
          rw [ih data.length _ _ (by omega) (by omega)]
          congr 1
          rw [List.drop_length, runBytes_nil]
          have hmiss := runBytes_header_miss res _ st hih hno10b hne
          rw [hih] at hmiss
          exact hmiss.symm
      · have hihf : st.in_header = false := by simpa using hih
        simp only [hihf, Bool.false_eq_true, if_false]
        split
        next hnone =>
          rw [List.getElem?_eq_getElem hc] at hnone
          simp at hnone
        next b hbeq =>
          have hbv : data[consumed] = b := by
            rw [List.getElem?_eq_getElem hc] at hbeq
            simpa using hbeq
          by_cases hhdr : st.last_char_was_newline = true ∧ b = 62
          · rw [if_pos hhdr]
            rw [ih (consumed + 1) _ _ (by omega) (by omega)]
            congr 1
            have hcons : data.drop consumed = b :: data.drop (consumed + 1) := by
              rw [List.drop_eq_getElem_cons hc, hbv]
            conv_rhs => rw [hcons]
            have hrb : runBytes (st, res) (b :: data.drop (consumed + 1))
                = runBytes (stepByte (st, res) b) (data.drop (consumed + 1)) := rfl
            rw [hrb]
            congr 1
            simp [stepByte, hihf, hhdr]
          · rw [if_neg hhdr]
            split
            next p hp =>
              obtain ⟨hple, hbound, hminb⟩ := findSeqBoundary_some data _ consumed p hp
              have hp1len : p + 1 ≤ data.length := by
                have h62 := hbound.2
                by_contra hcon
                rw [List.getElem?_eq_none (by omega)] at h62
                simp at h62
              have hspan_eq : (data.drop consumed).take (p + 1 - consumed)
                  = (data.drop consumed).take (p - consumed) ++ [10] := by
                have heq : p + 1 - consumed = (p - consumed) + 1 := by omega
                rw [heq, List.take_succ]
                congr 1
                rw [List.getElem?_drop]
                have heq2 : consumed + (p - consumed) = p := by omega
                rw [heq2, hbound.1]
                rfl
              have hdec := drop_decompose data consumed (p + 1) (by omega) (by omega)
              have hspan_ne : (data.drop consumed).take (p + 1 - consumed) ≠ [] := by
                rw [hspan_eq]
                simp
              have hhead : ¬(st.last_char_was_newline = true
                  ∧ ((data.drop consumed).take (p + 1 - consumed))[0]? = some 62) := by
                intro ⟨h1, h2⟩
                apply hhdr
                refine ⟨h1, ?_⟩
                rw [getElem?_drop_take data consumed _ 0 (by omega), Nat.add_zero,
                  List.getElem?_eq_getElem hc] at h2
                simp at h2
                omega
              have hpairs : ∀ i, ((data.drop consumed).take (p + 1 - consumed))[i]? = some 10
                  → ((data.drop consumed).take (p + 1 - consumed))[i + 1]? ≠ some 62 := by
                intro i h1 h2
                have hi1 : i + 1 < p + 1 - consumed := by
                  by_contra hcon
                  rw [List.getElem?_take, if_neg (by omega)] at h2
                  simp at h2
                have hq1 : data[consumed + i]? = some 10 := by
                  rw [getElem?_drop_take data consumed _ i (by omega)] at h1
                  exact h1
                have hq2 : data[consumed + i + 1]? = some 62 := by
                  rw [getElem?_drop_take data consumed _ (i + 1) (by omega)] at h2
                  rw [show consumed + (i + 1) = consumed + i + 1 from by omega] at h2
                  exact h2
                exact hminb (consumed + i) (by omega) (by omega) ⟨hq1, hq2⟩
              have hrun := runBytes_seq_span _ st res hihf hhead hpairs hspan_ne
              have hlast : ((data.drop consumed).take (p + 1 - consumed)).getLastD 0 = 10 := by
                rw [hspan_eq, List.getLastD_eq_getLast?, List.getLast?_concat]
                rfl
              have h10s : update_stats_scalar [10] = (0, 0, 0) := by decide
              have hspan_scal := update_stats_scalar_append
                ((data.drop consumed).take (p - consumed)) [10]
              rw [← hspan_eq, h10s] at hspan_scal
              by_cases hs : st.started
              · rw [if_pos hs]
                rw [ih (p + 1) _ _ (by omega) (by omega)]
                congr 1
                conv_rhs => rw [hdec]
                rw [runBytes_append, hrun, hcl consumed (p - consumed), hlast]
                refine congrArg (fun q => runBytes q (data.drop (p + 1))) ?_
                refine Prod.ext ?_ ?_
                · apply FastaParser.ext <;> simp [hs, hspan_scal, hihf] <;> omega
                · apply AnalysisResults.ext <;> simp [hs, hspan_scal] <;> omega
              · rw [if_neg hs]
                rw [ih (p + 1) _ _ (by omega) (by omega)]
                congr 1
                conv_rhs => rw [hdec]
                rw [runBytes_append, hrun, hlast]
                refine congrArg (fun q => runBytes q (data.drop (p + 1))) ?_
                refine Prod.ext ?_ ?_
                · apply FastaParser.ext <;> simp [hs, hihf]
                · apply AnalysisResults.ext <;> simp [hs]
            next hp =>
              split
              next hlast_none =>
                rw [List.getElem?_eq_getElem (show data.length - 1 < data.length by omega)]
                  at hlast_none
                simp at hlast_none
              next lastB hlastB =>
                have hnone := findSeqBoundary_none data (data.length - consumed) consumed hp
                  (le_refl _)
                have hspan_full : (data.drop consumed).take (data.length - consumed)
                    = data.drop consumed := by
                  rw [← List.length_drop]
                  exact List.take_length _
                have hlen_drop : (data.drop consumed).length = data.length - consumed :=
                  List.length_drop _ _
                have hspan_ne : data.drop consumed ≠ [] := by
                  intro hcon
                  rw [hcon] at hlen_drop
                  simp at hlen_drop
                  omega
                have hhead : ¬(st.last_char_was_newline = true
                    ∧ (data.drop consumed)[0]? = some 62) := by
                  intro ⟨h1, h2⟩
                  apply hhdr
                  refine ⟨h1, ?_⟩
                  rw [List.getElem?_drop, Nat.add_zero, List.getElem?_eq_getElem hc] at h2
                  simp at h2
                  omega
                have hpairs : ∀ i, (data.drop consumed)[i]? = some 10
                    → (data.drop consumed)[i + 1]? ≠ some 62 := by
                  intro i h1 h2
                  rw [List.getElem?_drop] at h1 h2
                  rw [show consumed + (i + 1) = consumed + i + 1 from by omega] at h2
                  exact hnone (consumed + i) (by omega) ⟨h1, h2⟩
                have hrun := runBytes_seq_span _ st res hihf hhead hpairs hspan_ne
                have hlast : (data.drop consumed).getLastD 0 = lastB := by
                  rw [List.getLastD_eq_getLast?, List.getLast?_eq_getElem?, hlen_drop,
                    List.getElem?_drop]
                  rw [show consumed + (data.length - consumed - 1) = data.length - 1
                    from by omega]
                  rw [hlastB]
                  rfl
                by_cases hs : st.started
                · rw [if_pos hs]
                  rw [ih data.length _ _ (by omega) (by omega)]
                  congr 1
                  rw [List.drop_length, runBytes_nil]
                  conv_rhs => rw [hrun]
                  rw [hcl consumed (data.length - consumed), hspan_full, hlast]
                  refine Prod.ext ?_ ?_
                  · apply FastaParser.ext <;> simp [hs, hihf]
                  · apply AnalysisResults.ext <;> simp [hs]
                · rw [if_neg hs]
                  rw [ih data.length _ _ (by omega) (by omega)]
                  congr 1
                  rw [List.drop_length, runBytes_nil]
                  conv_rhs => rw [hrun]
                  rw [hlast]
                  refine Prod.ext ?_ ?_
                  · apply FastaParser.ext <;> simp [hs, hihf]
                  · apply AnalysisResults.ext <;> simp [hs]

/-- Totality of the feed loop: every iteration strictly advances the
consumed position and every index it computes is in bounds, so with fuel
`data.length - consumed + 1` the loop always completes (for any host model
and either classifier path). -/
theorem feedGo_isSome (caps : SimdCaps) (no_simd : Bool) (data : List Nat) :
    ∀ fuel consumed st res, consumed ≤ data.length → data.length - consumed < fuel →
      (feedGo caps no_simd data consumed st res fuel).isSome := by
  intro fuel
  induction fuel with
  | zero => intro consumed st res hcle hfuel; omega
  | succ fuel ih =>
    intro consumed st res hcle hfuel
    by_cases hc : consumed < data.length
    case neg => simp [feedGo, hc]
    case pos =>
      simp only [feedGo, if_pos hc]
      by_cases hih : st.in_header
      · simp only [hih, if_true]
        split
        next pos hm =>
          have hple := memchr_some_lt 10 _ pos hm
          rw [List.length_drop] at hple
          exact ih (consumed + pos + 1) _ _ (by omega) (by omega)
        next hm => exact ih data.length _ _ (by omega) (by omega)
      · have hihf : st.in_header = false := by simpa using hih
        simp only [hihf, Bool.false_eq_true, if_false]
        split
        next hnone =>
          rw [List.getElem?_eq_getElem hc] at hnone
          simp at hnone
        next b hbeq =>
          by_cases hhdr : st.last_char_was_newline = true ∧ b = 62
          · rw [if_pos hhdr]
            exact ih (consumed + 1) _ _ (by omega) (by omega)
          · rw [if_neg hhdr]
            split
            next p hp =>
              obtain ⟨hple, hbound, hminb⟩ := findSeqBoundary_some data _ consumed p hp
              have hp1len : p + 1 ≤ data.length := by
                have h62 := hbound.2
                by_contra hcon
                rw [List.getElem?_eq_none (by omega)] at h62
                simp at h62
              by_cases hs : st.started
              · rw [if_pos hs]
                exact ih (p + 1) _ _ (by omega) (by omega)
              · rw [if_neg hs]
                exact ih (p + 1) _ _ (by omega) (by omega)
            next hp =>
              split
              next hlast_none =>
                rw [List.getElem?_eq_getElem
                  (show data.length - 1 < data.length by omega)] at hlast_none
                simp at hlast_none
              next lastB hlastB =>
                by_cases hs : st.started
                · rw [if_pos hs]
                  exact ih data.length _ _ (by omega) (by omega)
                · rw [if_neg hs]
                  exact ih data.length _ _ (by omega) (by omega)

/-- The total wrapper agrees with the byte-at-a-time semantics whenever the
classifier dispatch agrees with the scalar classifier. -/
theorem feed_eq_runBytes (caps : SimdCaps) (no_simd : Bool) (data : List Nat)
    (hcl : ∀ k1 k2 : Nat, update_stats caps ((data.drop k1).take k2) no_simd
            = update_stats_scalar ((data.drop k1).take k2))
    (st : FastaParser) (res : AnalysisResults) :
    FastaParser.feed caps no_simd st res data = runBytes (st, res) data := by
  unfold FastaParser.feed
  rw [feedGo_eq_runBytes caps no_simd data hcl (data.length + 1) 0 st res
    (by omega) (by omega)]
  simp [List.drop_zero]

/-- With the `no_simd` flag set, the dispatcher is the scalar classifier on
every slice, for any host model. -/
theorem hcl_no_simd (caps : SimdCaps) (data : List Nat) :
    ∀ k1 k2 : Nat, update_stats caps ((data.drop k1).take k2) true
      = update_stats_scalar ((data.drop k1).take k2) := by
  intro k1 k2
  simp [update_stats]

/-- For a valid host model and byte-valued data, the dispatcher is the
scalar classifier on every slice of the data. -/
theorem hcl_of_valid (caps : SimdCaps) (hcaps : ValidCaps caps) (no_simd : Bool)
    (data : List Nat) (hb : ∀ b ∈ data, b < 256) :
    ∀ k1 k2 : Nat, update_stats caps ((data.drop k1).take k2) no_simd
      = update_stats_scalar ((data.drop k1).take k2) := by
  intro k1 k2
  exact update_stats_eq_scalar caps hcaps _
    (fun b hbm => hb b (List.mem_of_mem_drop (List.mem_of_mem_take hbm))) no_simd

/-- Folding the feed loop over a chunk list equals byte-at-a-time folding
over the concatenation. -/
theorem foldlM_feedGo_eq (caps : SimdCaps) (no_simd : Bool) (chunks : List (List Nat))
    (hcl : ∀ chunk ∈ chunks, ∀ k1 k2 : Nat,
      update_stats caps (((chunk : List Nat).drop k1).take k2) no_simd
        = update_stats_scalar ((chunk.drop k1).take k2)) :
    ∀ p : FastaParser × AnalysisResults,
      chunks.foldlM
        (fun acc chunk => feedGo caps no_simd chunk 0 acc.1 acc.2 (chunk.length + 1)) p
      = some (runBytes p chunks.flatten) := by
  induction chunks with
  | nil => intro p; simp [runBytes]
  | cons chunk rest ih =>
    intro p
    have h1 : feedGo caps no_simd chunk 0 p.1 p.2 (chunk.length + 1)
        = some (runBytes p chunk) := by
      rw [feedGo_eq_runBytes caps no_simd chunk
        (hcl chunk (List.mem_cons_self chunk rest)) (chunk.length + 1) 0 p.1 p.2
        (by omega) (by omega)]
      simp [List.drop_zero]
    simp only [List.foldlM_cons, h1, Option.bind_eq_bind, Option.some_bind]
    rw [ih (fun c hc => hcl c (List.mem_cons_of_mem chunk hc))]
    rw [List.flatten_cons, runBytes_append]

/-- The full pipeline over a chunk list, expressed through the
byte-at-a-time semantics of the concatenated stream. -/
theorem processChunks_eq (caps : SimdCaps) (no_simd : Bool) (filename : String)
    (chunks : List (List Nat))
    (hcl : ∀ chunk ∈ chunks, ∀ k1 k2 : Nat,
      update_stats caps (((chunk : List Nat).drop k1).take k2) no_simd
        = update_stats_scalar ((chunk.drop k1).take k2)) :
    processChunks caps no_simd filename chunks
    = some ((runBytes (FastaParser.new, AnalysisResults.new filename) chunks.flatten).1.finish
        (runBytes (FastaParser.new, AnalysisResults.new filename) chunks.flatten).2) := by
  unfold processChunks
  rw [foldlM_feedGo_eq caps no_simd chunks hcl]
  rfl

/-! ### Parser-state invariants under the byte semantics -/

/-- The invariant maintained by the parser while consuming a stream:
before the first header nothing is recorded; afterwards the pre-final
`sequence_count` exceeds the recorded lengths by exactly one (the open
record); and the composition counters never exceed the classified
sequence characters. -/
def ParserInv (p : FastaParser × AnalysisResults) : Prop :=
  (p.1.started = false →
    p.1.lengths = [] ∧ p.1.current_sequence_length = 0 ∧ p.2.sequence_count = 0
      ∧ p.2.gc_count = 0 ∧ p.2.n_count = 0)
  ∧ (p.1.started = true → p.2.sequence_count = p.1.lengths.length + 1)
  ∧ p.2.gc_count + p.2.n_count ≤ p.1.lengths.sum + p.1.current_sequence_length

theorem parserInv_init (filename : String) :
    ParserInv (FastaParser.new, AnalysisResults.new filename) := by
  refine ⟨fun _ => ?_, fun h => ?_, ?_⟩
  · simp [FastaParser.new, AnalysisResults.new]
  · simp [FastaParser.new] at h
  · simp [FastaParser.new, AnalysisResults.new]

theorem stepByte_inv (p : FastaParser × AnalysisResults) (b : Nat)
    (hp : ParserInv p) : ParserInv (stepByte p b) := by
  obtain ⟨h1, h2, h3⟩ := hp
  unfold stepByte ParserInv
  by_cases hih : p.1.in_header
  · by_cases hb : b = 10 <;> simp [hih, hb] <;> exact ⟨h1, h2, h3⟩
  · simp only [hih, Bool.false_eq_true, if_false]
    by_cases hhdr : p.1.last_char_was_newline = true ∧ b = 62
    · simp only [hhdr, if_true, and_true]
      by_cases hs : p.1.started
      · simp only [hs, if_true]
        refine ⟨fun hcon => by simp at hcon, fun _ => ?_, ?_⟩
        · simp [h2 hs]
        · simp
          omega
      · have hsf : p.1.started = false := by simpa using hs
        simp only [hsf, Bool.false_eq_true, if_false]
        obtain ⟨ha, hb2, hc2, hd, he⟩ := h1 hsf
        refine ⟨fun hcon => by simp at hcon, fun _ => ?_, ?_⟩
        · simp [ha, hc2]
        · omega
    · simp only [hhdr, if_false]
      by_cases hs : p.1.started
      · simp only [hs, if_true]
        have hval : (LOOKUP b &&& 1) + ((LOOKUP b &&& 2) >>> 1) ≤ 1 - (LOOKUP b >>> 2) := by
          rw [lookup_and_one, lookup_and_two, lookup_shift_two]
          by_cases hg : isGCByte b
          · simp [hg, skip_not_gc b hg, n_not_gc b hg]
          · by_cases hn : isNByte b
            · simp [hg, hn, skip_not_n b hn]
            · by_cases hsk : isSkipByte b <;> simp [hg, hn, hsk]
        refine ⟨fun hcon => by simp [hs] at hcon, fun _ => by simp [h2 hs], ?_⟩
        simp only [lookup_and_one, lookup_and_two, lookup_shift_two] at hval ⊢
        by_cases hg : isGCByte b
        · simp [hg, skip_not_gc b hg, n_not_gc b hg]
          omega
        · by_cases hnb : isNByte b
          · simp [hg, hnb, skip_not_n b hnb]
            omega
          · by_cases hskb : isSkipByte b <;> simp [hg, hnb, hskb] <;> omega
      · have hsf : p.1.started = false := by simpa using hs
        simp only [hsf, Bool.false_eq_true, if_false]
        refine ⟨fun _ => ?_, fun hcon => by simp [hsf] at hcon, by simpa using h3⟩
        obtain ⟨ha, hb2, hc2, hd, he⟩ := h1 hsf
        simpa [ha, hb2, hc2, hd, he] using True.intro

theorem runBytes_inv (data : List Nat) :
    ∀ p : FastaParser × AnalysisResults, ParserInv p → ParserInv (runBytes p data) := by
  induction data with
  | nil => intro p hp; exact hp
  | cons b rest ih =>
    intro p hp
    exact ih (stepByte p b) (stepByte_inv p b hp)

/-- Fields never touched while feeding bytes: everything the reducer fills
in later, and the filename. -/
theorem stepByte_frame (p : FastaParser × AnalysisResults) (b : Nat) :
    (stepByte p b).2.total_length = p.2.total_length
    ∧ (stepByte p b).2.n25 = p.2.n25
    ∧ (stepByte p b).2.n25_sequence_count = p.2.n25_sequence_count
    ∧ (stepByte p b).2.n50 = p.2.n50
    ∧ (stepByte p b).2.n50_sequence_count = p.2.n50_sequence_count
    ∧ (stepByte p b).2.n75 = p.2.n75
    ∧ (stepByte p b).2.n75_sequence_count = p.2.n75_sequence_count
    ∧ (stepByte p b).2.largest_contig = p.2.largest_contig
    ∧ (stepByte p b).2.shortest_contig = p.2.shortest_contig
    ∧ (stepByte p b).2.filename = p.2.filename := by
  unfold stepByte
  by_cases hih : p.1.in_header
  · by_cases hb : b = 10 <;> simp [hih, hb]
  · simp only [hih, Bool.false_eq_true, if_false]
    by_cases hhdr : p.1.last_char_was_newline = true ∧ b = 62
    · by_cases hs : p.1.started <;> simp [hhdr, hs]
    · by_cases hs : p.1.started <;> simp [hhdr, hs]

theorem runBytes_frame (data : List Nat) :
    ∀ p : FastaParser × AnalysisResults,
      (runBytes p data).2.total_length = p.2.total_length
      ∧ (runBytes p data).2.n25 = p.2.n25
      ∧ (runBytes p data).2.n25_sequence_count = p.2.n25_sequence_count
      ∧ (runBytes p data).2.n50 = p.2.n50
      ∧ (runBytes p data).2.n50_sequence_count = p.2.n50_sequence_count
      ∧ (runBytes p data).2.n75 = p.2.n75
      ∧ (runBytes p data).2.n75_sequence_count = p.2.n75_sequence_count
      ∧ (runBytes p data).2.largest_contig = p.2.largest_contig
      ∧ (runBytes p data).2.shortest_contig = p.2.shortest_contig
      ∧ (runBytes p data).2.filename = p.2.filename := by
  induction data with
  | nil => intro p; exact ⟨rfl, rfl, rfl, rfl, rfl, rfl, rfl, rfl, rfl, rfl⟩
  | cons b rest ih =>
    intro p
    obtain ⟨a1, a2, a3, a4, a5, a6, a7, a8, a9, a10⟩ := stepByte_frame p b
    obtain ⟨b1, b2, b3, b4, b5, b6, b7, b8, b9, b10⟩ := ih (stepByte p b)
    exact ⟨b1.trans a1, b2.trans a2, b3.trans a3, b4.trans a4, b5.trans a5,
      b6.trans a6, b7.trans a7, b8.trans a8, b9.trans a9, b10.trans a10⟩

/-! ### Stats-reducer lemmas -/

theorem sortDesc_sorted (l : List Nat) : List.Sorted (· ≥ ·) (sortDesc l) :=
  List.sorted_insertionSort _ _

theorem sortDesc_perm (l : List Nat) : (sortDesc l).Perm l :=
  List.perm_insertionSort _ _

theorem sortDesc_sum (l : List Nat) : (sortDesc l).sum = l.sum :=
  (sortDesc_perm l).sum_eq

theorem sortDesc_length (l : List Nat) : (sortDesc l).length = l.length :=
  (sortDesc_perm l).length_eq

theorem sortDesc_mem (l : List Nat) (x : Nat) : x ∈ sortDesc l ↔ x ∈ l :=
  (sortDesc_perm l).mem_iff

/-- The head of a descending-sorted non-empty list bounds every element. -/
theorem sorted_head_max (l : List Nat) (hs : List.Sorted (· ≥ ·) l) (hne : l ≠ []) :
    l.headD 0 ∈ l ∧ ∀ x ∈ l, x ≤ l.headD 0 := by
  cases l with
  | nil => exact absurd rfl hne
  | cons a t =>
    rw [List.sorted_cons] at hs
    refine ⟨List.mem_cons_self a t, ?_⟩
    intro x hx
    rcases List.mem_cons.mp hx with h | h
    · simp [h, List.headD]
    · simpa using hs.1 x h

/-- The last element of a descending-sorted non-empty list is bounded by
every element. -/
theorem sorted_last_min (l : List Nat) (hs : List.Sorted (· ≥ ·) l) (hne : l ≠ []) :
    l.getLastD 0 ∈ l ∧ ∀ x ∈ l, l.getLastD 0 ≤ x := by
  induction l with
  | nil => exact absurd rfl hne
  | cons a t ih =>
    rw [List.sorted_cons] at hs
    cases ht : t with
    | nil =>
      subst ht
      refine ⟨by simp [List.getLastD], ?_⟩
      intro x hx
      simp at hx
      simp [hx, List.getLastD]
    | cons c t2 =>
      rw [← ht]
      have htne : t ≠ [] := by rw [ht]; simp
      obtain ⟨hmem, hbound⟩ := ih hs.2 htne
      have hcons : (a :: t).getLastD 0 = t.getLastD 0 := by
        rw [List.getLastD_cons]
        exact getLastD_irrel t htne a 0
      rw [hcons]
      refine ⟨List.mem_cons_of_mem a hmem, ?_⟩
      intro x hx
      rcases List.mem_cons.mp hx with h | h
      · subst h
        exact le_trans (hbound _ hmem) (by simpa using hs.1 _ hmem)
      · exact hbound x h

/-- Specification of one N-statistic: walking a (descending) length list
with a running cumulative sum, return the first element at which the sum
reaches the threshold, together with its 1-based rank. -/
def firstAtThreshold (thresh : Nat) : List Nat → Nat → Nat → Option (Nat × Nat)
  | [], _, _ => none
  | x :: rest, i, cum =>
    if thresh ≤ cum + x then some (x, i + 1)
    else firstAtThreshold thresh rest (i + 1) (cum + x)


theorem nstatUpd25_n50 (x i total c : Nat) (res : AnalysisResults) :
    (nstatUpd25 x i total c res).n50 = res.n50 := by
  unfold nstatUpd25; split_ifs <;> rfl

theorem nstatUpd25_n50c (x i total c : Nat) (res : AnalysisResults) :
    (nstatUpd25 x i total c res).n50_sequence_count = res.n50_sequence_count := by
  unfold nstatUpd25; split_ifs <;> rfl

theorem nstatUpd25_n75 (x i total c : Nat) (res : AnalysisResults) :
    (nstatUpd25 x i total c res).n75 = res.n75 := by
  unfold nstatUpd25; split_ifs <;> rfl

theorem nstatUpd25_n75c (x i total c : Nat) (res : AnalysisResults) :
    (nstatUpd25 x i total c res).n75_sequence_count = res.n75_sequence_count := by
  unfold nstatUpd25; split_ifs <;> rfl

theorem nstatUpd50_n25 (x i total c : Nat) (res : AnalysisResults) :
    (nstatUpd50 x i total c res).n25 = res.n25 := by
  unfold nstatUpd50; split_ifs <;> rfl

theorem nstatUpd50_n25c (x i total c : Nat) (res : AnalysisResults) :
    (nstatUpd50 x i total c res).n25_sequence_count = res.n25_sequence_count := by
  unfold nstatUpd50; split_ifs <;> rfl

theorem nstatUpd50_n75 (x i total c : Nat) (res : AnalysisResults) :
    (nstatUpd50 x i total c res).n75 = res.n75 := by
  unfold nstatUpd50; split_ifs <;> rfl

theorem nstatUpd50_n75c (x i total c : Nat) (res : AnalysisResults) :
    (nstatUpd50 x i total c res).n75_sequence_count = res.n75_sequence_count := by
  unfold nstatUpd50; split_ifs <;> rfl

theorem nstatUpd25_skip (x i total c : Nat) (res : AnalysisResults)
    (h : res.n25 ≠ 0) : nstatUpd25 x i total c res = res := by
  unfold nstatUpd25
  rw [if_neg (fun hcon => h hcon.1)]

theorem nstatUpd50_skip (x i total c : Nat) (res : AnalysisResults)
    (h : res.n50 ≠ 0) : nstatUpd50 x i total c res = res := by
  unfold nstatUpd50
  rw [if_neg (fun hcon => h hcon.1)]

theorem nstatUpd25_nofire (x i total c : Nat) (res : AnalysisResults)
    (h : ¬ total / 4 ≤ c) : nstatUpd25 x i total c res = res := by
  unfold nstatUpd25
  rw [if_neg (fun hcon => h hcon.2)]

theorem nstatUpd50_nofire (x i total c : Nat) (res : AnalysisResults)
    (h : ¬ total / 2 ≤ c) : nstatUpd50 x i total c res = res := by
  unfold nstatUpd50
  rw [if_neg (fun hcon => h hcon.2)]

theorem nstatUpd25_fire (x i total c : Nat) (res : AnalysisResults)
    (h0 : res.n25 = 0) (h : total / 4 ≤ c) :
    nstatUpd25 x i total c res = { res with n25 := x, n25_sequence_count := i + 1 } := by
  unfold nstatUpd25
  rw [if_pos ⟨h0, h⟩]

theorem nstatUpd50_fire (x i total c : Nat) (res : AnalysisResults)
    (h0 : res.n50 = 0) (h : total / 2 ≤ c) :
    nstatUpd50 x i total c res = { res with n50 := x, n50_sequence_count := i + 1 } := by
  unfold nstatUpd50
  rw [if_pos ⟨h0, h⟩]

theorem nstatUpd25_other (x i total c : Nat) (res : AnalysisResults) :
    (nstatUpd25 x i total c res).total_length = res.total_length
    ∧ (nstatUpd25 x i total c res).sequence_count = res.sequence_count
    ∧ (nstatUpd25 x i total c res).gc_count = res.gc_count
    ∧ (nstatUpd25 x i total c res).n_count = res.n_count
    ∧ (nstatUpd25 x i total c res).largest_contig = res.largest_contig
    ∧ (nstatUpd25 x i total c res).shortest_contig = res.shortest_contig
    ∧ (nstatUpd25 x i total c res).filename = res.filename := by
  unfold nstatUpd25; split_ifs <;> exact ⟨rfl, rfl, rfl, rfl, rfl, rfl, rfl⟩

theorem nstatUpd50_other (x i total c : Nat) (res : AnalysisResults) :
    (nstatUpd50 x i total c res).total_length = res.total_length
    ∧ (nstatUpd50 x i total c res).sequence_count = res.sequence_count
    ∧ (nstatUpd50 x i total c res).gc_count = res.gc_count
    ∧ (nstatUpd50 x i total c res).n_count = res.n_count
    ∧ (nstatUpd50 x i total c res).largest_contig = res.largest_contig
    ∧ (nstatUpd50 x i total c res).shortest_contig = res.shortest_contig
    ∧ (nstatUpd50 x i total c res).filename = res.filename := by
  unfold nstatUpd50; split_ifs <;> exact ⟨rfl, rfl, rfl, rfl, rfl, rfl, rfl⟩

/-- Fields of the results record that the N-statistic scan never writes. -/
theorem nstatLoop_frame_other (l : List Nat) :
    ∀ total i cum res,
      (nstatLoop l total i cum res).total_length = res.total_length
      ∧ (nstatLoop l total i cum res).sequence_count = res.sequence_count
      ∧ (nstatLoop l total i cum res).gc_count = res.gc_count
      ∧ (nstatLoop l total i cum res).n_count = res.n_count
      ∧ (nstatLoop l total i cum res).largest_contig = res.largest_contig
      ∧ (nstatLoop l total i cum res).shortest_contig = res.shortest_contig
      ∧ (nstatLoop l total i cum res).filename = res.filename := by
  induction l with
  | nil => intro total i cum res; simp [nstatLoop]
  | cons x rest ih =>
    intro total i cum res
    simp only [nstatLoop]
    split_ifs <;>
      simp [ih, nstatUpd25_other, nstatUpd50_other,
        (nstatUpd25_other x i total (cum + x) res).1]

/-- Once N25 is assigned (non-zero), the rest of the scan preserves it. -/
theorem nstatLoop_n25_frame (l : List Nat) :
    ∀ total i cum res, (res : AnalysisResults).n25 ≠ 0 →
      (nstatLoop l total i cum res).n25 = res.n25
      ∧ (nstatLoop l total i cum res).n25_sequence_count = res.n25_sequence_count := by
  induction l with
  | nil => intro total i cum res _; simp [nstatLoop]
  | cons x rest ih =>
    intro total i cum res h
    simp only [nstatLoop]
    rw [nstatUpd25_skip x i total (cum + x) res h]
    split_ifs with h75
    · exact ⟨(nstatUpd50_n25 _ _ _ _ _).trans rfl, (nstatUpd50_n25c _ _ _ _ _).trans rfl⟩
    · obtain ⟨ha, hb⟩ := ih total (i + 1) (cum + x) (nstatUpd50 x i total (cum + x) res)
        (by rw [nstatUpd50_n25]; exact h)
      exact ⟨ha.trans (nstatUpd50_n25 _ _ _ _ _), hb.trans (nstatUpd50_n25c _ _ _ _ _)⟩

/-- Once N50 is assigned (non-zero), the rest of the scan preserves it. -/
theorem nstatLoop_n50_frame (l : List Nat) :
    ∀ total i cum res, (res : AnalysisResults).n50 ≠ 0 →
      (nstatLoop l total i cum res).n50 = res.n50
      ∧ (nstatLoop l total i cum res).n50_sequence_count = res.n50_sequence_count := by
  induction l with
  | nil => intro total i cum res _; simp [nstatLoop]
  | cons x rest ih =>
    intro total i cum res h
    simp only [nstatLoop]
    rw [nstatUpd50_skip x i total (cum + x) _ (by rw [nstatUpd25_n50]; exact h)]
    split_ifs with h75
    · exact ⟨(nstatUpd25_n50 _ _ _ _ _).trans rfl, (nstatUpd25_n50c _ _ _ _ _).trans rfl⟩
    · obtain ⟨ha, hb⟩ := ih total (i + 1) (cum + x) (nstatUpd25 x i total (cum + x) res)
        (by rw [nstatUpd25_n50]; exact h)
      exact ⟨ha.trans (nstatUpd25_n50 _ _ _ _ _), hb.trans (nstatUpd25_n50c _ _ _ _ _)⟩

/-- The N75 statistic computed by the scan is the first element at which
the cumulative sum reaches `total * 3 / 4`, with its 1-based rank. -/
theorem nstatLoop_n75_val (l : List Nat) :
    ∀ total i cum res, (res : AnalysisResults).n75 = 0 →
      total * 3 / 4 ≤ cum + l.sum → l ≠ [] →
      ∃ v r, firstAtThreshold (total * 3 / 4) l i cum = some (v, r)
        ∧ (nstatLoop l total i cum res).n75 = v
        ∧ (nstatLoop l total i cum res).n75_sequence_count = r := by
  induction l with
  | nil => intro total i cum res _ _ hne; exact absurd rfl hne
  | cons x rest ih =>
    intro total i cum res h75 hsum _
    rw [List.sum_cons] at hsum
    simp only [nstatLoop, firstAtThreshold]
    have h75eq : (nstatUpd50 x i total (cum + x) (nstatUpd25 x i total (cum + x) res)).n75
        = res.n75 := (nstatUpd50_n75 _ _ _ _ _).trans (nstatUpd25_n75 _ _ _ _ _)
    by_cases hf : total * 3 / 4 ≤ cum + x
    · rw [if_pos hf, if_pos (h75eq.symm ▸ (⟨h75, hf⟩ : res.n75 = 0 ∧ total * 3 / 4 ≤ cum + x))]
      exact ⟨x, i + 1, rfl, rfl, rfl⟩
    · rw [if_neg hf, if_neg (fun hcon => hf hcon.2)]
      have hrne : rest ≠ [] := by
        intro hr
        rw [hr] at hsum
        simp at hsum
        omega
      exact ih total (i + 1) (cum + x) _ (h75eq.trans h75) (by omega) hrne

/-- The N25 statistic computed by the scan is the first element at which
the cumulative sum reaches `total / 4`, with its 1-based rank (on a
descending list whose suffix sum still reaches the N75 break threshold). -/
theorem nstatLoop_n25_val (l : List Nat) :
    ∀ total i cum res, List.Sorted (· ≥ ·) l → (res : AnalysisResults).n25 = 0 →
      res.n75 = 0 → total * 3 / 4 ≤ cum + l.sum → l ≠ [] →
      ∃ v r, firstAtThreshold (total / 4) l i cum = some (v, r)
        ∧ (nstatLoop l total i cum res).n25 = v
        ∧ (nstatLoop l total i cum res).n25_sequence_count = r := by
  induction l with
  | nil => intro total i cum res _ _ _ _ hne; exact absurd rfl hne
  | cons x rest ih =>
    intro total i cum res hsorted h25 h75 hsum _
    rw [List.sum_cons] at hsum
    have hrest0 : x = 0 → rest.sum = 0 := by
      intro hx0
      rw [List.sorted_cons] at hsorted
      refine List.sum_eq_zero ?_
      intro y hy
      have := hsorted.1 y hy
      omega
    simp only [nstatLoop, firstAtThreshold]
    by_cases hf25 : total / 4 ≤ cum + x
    · rw [if_pos hf25, nstatUpd25_fire x i total (cum + x) res h25 hf25]
      have h75eq : (nstatUpd50 x i total (cum + x)
            { res with n25 := x, n25_sequence_count := i + 1 }).n75 = res.n75 :=
        (nstatUpd50_n75 _ _ _ _ _).trans rfl
      by_cases hf75 : total * 3 / 4 ≤ cum + x
      · rw [if_pos (h75eq.symm ▸ (⟨h75, hf75⟩ : res.n75 = 0 ∧ total * 3 / 4 ≤ cum + x))]
        refine ⟨x, i + 1, rfl, ?_, ?_⟩
        · show (nstatUpd50 x i total (cum + x)
              { res with n25 := x, n25_sequence_count := i + 1 }).n25 = x
          rw [nstatUpd50_n25]
        · show (nstatUpd50 x i total (cum + x)
              { res with n25 := x, n25_sequence_count := i + 1 }).n25_sequence_count = i + 1
          rw [nstatUpd50_n25c]
      · rw [if_neg (fun hcon => hf75 hcon.2)]
        have hxpos : x ≠ 0 := by
          intro hx0
          have := hrest0 hx0
          omega
        obtain ⟨hfr1, hfr2⟩ := nstatLoop_n25_frame rest total (i + 1) (cum + x)
          (nstatUpd50 x i total (cum + x) { res with n25 := x, n25_sequence_count := i + 1 })
          (by rw [nstatUpd50_n25]; exact hxpos)
        refine ⟨x, i + 1, rfl, ?_, ?_⟩
        · rw [hfr1, nstatUpd50_n25]
        · rw [hfr2, nstatUpd50_n25c]
    · have hf50 : ¬(total / 2 ≤ cum + x) := by omega
      have hf75 : ¬(total * 3 / 4 ≤ cum + x) := by omega
      rw [if_neg hf25, nstatUpd25_nofire x i total (cum + x) res hf25,
        nstatUpd50_nofire x i total (cum + x) res hf50,
        if_neg (fun hcon : res.n75 = 0 ∧ total * 3 / 4 ≤ cum + x => hf75 hcon.2)]
      have hrne : rest ≠ [] := by
        intro hr
        rw [hr] at hsum
        simp at hsum
        omega
      rw [List.sorted_cons] at hsorted
      exact ih total (i + 1) (cum + x) res hsorted.2 h25 h75 (by omega) hrne

/-- The N50 statistic computed by the scan is the first element at which
the cumulative sum reaches `total / 2`, with its 1-based rank. -/
theorem nstatLoop_n50_val (l : List Nat) :
    ∀ total i cum res, List.Sorted (· ≥ ·) l → (res : AnalysisResults).n50 = 0 →
      res.n75 = 0 → total * 3 / 4 ≤ cum + l.sum → l ≠ [] →
      ∃ v r, firstAtThreshold (total / 2) l i cum = some (v, r)
        ∧ (nstatLoop l total i cum res).n50 = v
        ∧ (nstatLoop l total i cum res).n50_sequence_count = r := by
  induction l with
  | nil => intro total i cum res _ _ _ _ hne; exact absurd rfl hne
  | cons x rest ih =>
    intro total i cum res hsorted h50 h75 hsum _
    rw [List.sum_cons] at hsum
    have hrest0 : x = 0 → rest.sum = 0 := by
      intro hx0
      rw [List.sorted_cons] at hsorted
      refine List.sum_eq_zero ?_
      intro y hy
      have := hsorted.1 y hy
      omega
    simp only [nstatLoop, firstAtThreshold]
    have h50a : (nstatUpd25 x i total (cum + x) res).n50 = res.n50 :=
      nstatUpd25_n50 _ _ _ _ _
    have h75a : (nstatUpd25 x i total (cum + x) res).n75 = res.n75 :=
      nstatUpd25_n75 _ _ _ _ _
    by_cases hf50 : total / 2 ≤ cum + x
    · rw [if_pos hf50, nstatUpd50_fire x i total (cum + x) _ (h50a.trans h50) hf50]
      have h75eq : ({ nstatUpd25 x i total (cum + x) res with
            n50 := x, n50_sequence_count := i + 1 }).n75 = res.n75 := h75a
      by_cases hf75 : total * 3 / 4 ≤ cum + x
      · rw [if_pos (h75eq.symm ▸ (⟨h75, hf75⟩ : res.n75 = 0 ∧ total * 3 / 4 ≤ cum + x))]
        exact ⟨x, i + 1, rfl, rfl, rfl⟩
      · rw [if_neg (fun hcon => hf75 hcon.2)]
        have hxpos : x ≠ 0 := by
          intro hx0
          have := hrest0 hx0
          omega
        obtain ⟨hfr1, hfr2⟩ := nstatLoop_n50_frame rest total (i + 1) (cum + x)
          ({ nstatUpd25 x i total (cum + x) res with
              n50 := x, n50_sequence_count := i + 1 }) hxpos
        exact ⟨x, i + 1, rfl, by rw [hfr1], by rw [hfr2]⟩
    · have hf75 : ¬(total * 3 / 4 ≤ cum + x) := by omega
      rw [if_neg hf50, nstatUpd50_nofire x i total (cum + x) _ hf50,
        if_neg (fun hcon => hf75 hcon.2)]
      have hrne : rest ≠ [] := by
        intro hr
        rw [hr] at hsum
        simp at hsum
        omega
      rw [List.sorted_cons] at hsorted
      obtain ⟨hv, hr2, hfst, hn50, hn50c⟩ := ih total (i + 1) (cum + x)
        (nstatUpd25 x i total (cum + x) res) hsorted.2 (h50a.trans h50)
        (h75a.trans h75) (by omega) hrne
      exact ⟨hv, hr2, hfst, hn50, hn50c⟩

/-- On an empty length list the reducer leaves the record untouched. -/
theorem calculate_stats_nil (res : AnalysisResults) :
    res.calculate_stats [] = res := by
  simp [AnalysisResults.calculate_stats]

/-- On a non-empty length list the reducer sets the total, the count and
the extremes from the descending sort, and leaves composition counters and
the filename unchanged. -/
theorem calculate_stats_fields (res : AnalysisResults) (lengths : List Nat)
    (hne : lengths ≠ []) :
    (res.calculate_stats lengths).total_length = lengths.sum
    ∧ (res.calculate_stats lengths).sequence_count = lengths.length
    ∧ (res.calculate_stats lengths).largest_contig = (sortDesc lengths).headD 0
    ∧ (res.calculate_stats lengths).shortest_contig = (sortDesc lengths).getLastD USIZE_MAX
    ∧ (res.calculate_stats lengths).gc_count = res.gc_count
    ∧ (res.calculate_stats lengths).n_count = res.n_count
    ∧ (res.calculate_stats lengths).filename = res.filename := by
  simp only [AnalysisResults.calculate_stats, if_neg hne]
  obtain ⟨f1, f2, f3, f4, f5, f6, f7⟩ :=
    nstatLoop_frame_other (sortDesc lengths) lengths.sum 0 0
      { res with
        total_length := lengths.sum
        sequence_count := lengths.length
        largest_contig := (sortDesc lengths).headD 0
        shortest_contig := (sortDesc lengths).getLastD USIZE_MAX }
  exact ⟨f1, f2, f5, f6, f3, f4, f7⟩

/-- On a non-empty length list with untouched N-statistics, the reducer
computes each N-statistic as the first-threshold element of the descending
sort, with its 1-based rank. -/
theorem calculate_stats_nstats (res : AnalysisResults) (lengths : List Nat)
    (hne : lengths ≠ []) (h25 : res.n25 = 0) (h50 : res.n50 = 0) (h75 : res.n75 = 0) :
    ∃ v25 r25 v50 r50 v75 r75,
      firstAtThreshold (lengths.sum / 4) (sortDesc lengths) 0 0 = some (v25, r25)
      ∧ firstAtThreshold (lengths.sum / 2) (sortDesc lengths) 0 0 = some (v50, r50)
      ∧ firstAtThreshold (lengths.sum * 3 / 4) (sortDesc lengths) 0 0 = some (v75, r75)
      ∧ (res.calculate_stats lengths).n25 = v25
      ∧ (res.calculate_stats lengths).n25_sequence_count = r25
      ∧ (res.calculate_stats lengths).n50 = v50
      ∧ (res.calculate_stats lengths).n50_sequence_count = r50
      ∧ (res.calculate_stats lengths).n75 = v75
      ∧ (res.calculate_stats lengths).n75_sequence_count = r75 := by
  have hsne : sortDesc lengths ≠ [] := by
    intro hcon
    have := sortDesc_length lengths
    rw [hcon] at this
    simp at this
    exact hne (List.eq_nil_of_length_eq_zero this.symm)
  have hsum : lengths.sum * 3 / 4 ≤ 0 + (sortDesc lengths).sum := by
    rw [sortDesc_sum]
    omega
  simp only [AnalysisResults.calculate_stats, if_neg hne]
  obtain ⟨v25, r25, hf25, hl25, hc25⟩ := nstatLoop_n25_val (sortDesc lengths)
    lengths.sum 0 0
    { res with
      total_length := lengths.sum
      sequence_count := lengths.length
      largest_contig := (sortDesc lengths).headD 0
      shortest_contig := (sortDesc lengths).getLastD USIZE_MAX }
    (sortDesc_sorted lengths) h25 h75 hsum hsne
  obtain ⟨v50, r50, hf50, hl50, hc50⟩ := nstatLoop_n50_val (sortDesc lengths)
    lengths.sum 0 0
    { res with
      total_length := lengths.sum
      sequence_count := lengths.length
      largest_contig := (sortDesc lengths).headD 0
      shortest_contig := (sortDesc lengths).getLastD USIZE_MAX }
    (sortDesc_sorted lengths) h50 h75 hsum hsne
  obtain ⟨v75, r75, hf75, hl75, hc75⟩ := nstatLoop_n75_val (sortDesc lengths)
    lengths.sum 0 0
    { res with
      total_length := lengths.sum
      sequence_count := lengths.length
      largest_contig := (sortDesc lengths).headD 0
      shortest_contig := (sortDesc lengths).getLastD USIZE_MAX }
    h75 hsum hsne
  exact ⟨v25, r25, v50, r50, v75, r75, hf25, hf50, hf75,
    hl25, hc25, hl50, hc50, hl75, hc75⟩

/-! ### Header counting -/

/-- The number of header lines in a byte stream: a `>` byte at the start of
a line (the stream start, or right after a newline). -/
def headerLines : List Nat → Bool → Nat
  | [], _ => 0
  | b :: rest, atStart =>
    (if atStart = true ∧ b = 62 then 1 else 0) + headerLines rest (decide (b = 10))

/-- While scanning a header line the previous byte is never a newline (a
newline would have ended the header). -/
def HeaderNlInv (st : FastaParser) : Prop :=
  st.in_header = true → st.last_char_was_newline = false

theorem stepByte_headerLines (p : FastaParser × AnalysisResults) (b : Nat)
    (hp : HeaderNlInv p.1) :
    (stepByte p b).2.sequence_count
      = p.2.sequence_count
        + (if p.1.last_char_was_newline = true ∧ b = 62 then 1 else 0)
    ∧ (stepByte p b).1.last_char_was_newline = decide (b = 10)
    ∧ HeaderNlInv (stepByte p b).1 := by
  unfold stepByte HeaderNlInv
  by_cases hih : p.1.in_header
  · have hnl : p.1.last_char_was_newline = false := hp hih
    by_cases hb : b = 10 <;> simp [hih, hb, hnl]
  · simp only [hih, Bool.false_eq_true, if_false]
    by_cases hhdr : p.1.last_char_was_newline = true ∧ b = 62
    · have hb62 : b = 62 := hhdr.2
      by_cases hs : p.1.started <;> simp [hhdr, hs, hb62]
    · by_cases hs : p.1.started <;> simp [hhdr, hs]

theorem runBytes_headerLines (data : List Nat) :
    ∀ p : FastaParser × AnalysisResults, HeaderNlInv p.1 →
      (runBytes p data).2.sequence_count
        = p.2.sequence_count + headerLines data p.1.last_char_was_newline
      ∧ HeaderNlInv (runBytes p data).1 := by
  induction data with
  | nil => intro p hp; exact ⟨by simp [runBytes, headerLines], hp⟩
  | cons b rest ih =>
    intro p hp
    obtain ⟨hcnt, hnl, hinv⟩ := stepByte_headerLines p b hp
    obtain ⟨ihc, ihi⟩ := ih (stepByte p b) hinv
    constructor
    · show (runBytes (stepByte p b) rest).2.sequence_count = _
      rw [ihc, hcnt, hnl]
      simp only [headerLines]
      omega
    · exact ihi

/-! ### Finish-level consequences -/

/-- `finish` never changes the composition counters or the filename. -/
theorem finish_frame (st : FastaParser) (res : AnalysisResults) :
    (st.finish res).gc_count = res.gc_count
    ∧ (st.finish res).n_count = res.n_count
    ∧ (st.finish res).filename = res.filename := by
  unfold FastaParser.finish
  by_cases h : st.finalLengths = []
  · rw [h, calculate_stats_nil]
    exact ⟨rfl, rfl, rfl⟩
  · obtain ⟨_, _, _, _, g5, g6, g7⟩ := calculate_stats_fields res st.finalLengths h
    exact ⟨g5, g6, g7⟩

/-- If the pre-reduction total is zero (as the feed loop guarantees), the
final total is the sum of all recorded record lengths. -/
theorem finish_total (st : FastaParser) (res : AnalysisResults)
    (htot : res.total_length = 0) :
    (st.finish res).total_length = st.finalLengths.sum := by
  unfold FastaParser.finish
  by_cases h : st.finalLengths = []
  · rw [h, calculate_stats_nil, htot]
    simp
  · exact (calculate_stats_fields res st.finalLengths h).1

/-- The feed loop over a chunk list never fails, for any host model. -/
theorem foldlM_feedGo_isSome (caps : SimdCaps) (no_simd : Bool)
    (chunks : List (List Nat)) :
    ∀ p : FastaParser × AnalysisResults,
      (chunks.foldlM
        (fun acc chunk => feedGo caps no_simd chunk 0 acc.1 acc.2 (chunk.length + 1))
        p).isSome := by
  induction chunks with
  | nil => intro p; simp
  | cons c rest ih =>
    intro p
    simp only [List.foldlM_cons, Option.bind_eq_bind]
    have h := feedGo_isSome caps no_simd c (c.length + 1) 0 p.1 p.2 (by omega) (by omega)
    obtain ⟨q, hq⟩ := Option.isSome_iff_exists.mp h
    rw [hq, Option.some_bind]
    exact ih q

/-- The whole pipeline never fails, for any host model. -/
theorem processChunks_isSome (caps : SimdCaps) (no_simd : Bool) (filename : String)
    (chunks : List (List Nat)) :
    (processChunks caps no_simd filename chunks).isSome := by
  unfold processChunks
  obtain ⟨q, hq⟩ := Option.isSome_iff_exists.mp
    (foldlM_feedGo_isSome caps no_simd chunks (FastaParser.new, AnalysisResults.new filename))
  rw [hq]
  rfl

/-! ### A concrete host model -/

/-- A concrete capability model: no SIMD features detected, every
`align_to` split puts everything in the unaligned head (a split `align_to`
is always allowed to produce). -/
def trivCaps : SimdCaps :=
  { avx512bw := false
    avx2 := false
    sve2 := false
    neon := false
    sveVl := 16
    align64 := fun l => (l, [], [])
    align32 := fun l => (l, [], [])
    align16 := fun l => (l, [], []) }

theorem trivCaps_valid : ValidCaps trivCaps := by
  refine ⟨fun l => ⟨?_, ?_⟩, fun l => ⟨?_, ?_⟩, fun l => ⟨?_, ?_⟩, ?_⟩ <;>
    simp [trivCaps]

/-! ## Thread-count selection (src/main.rs:158-169)

`determine_threads` uses an explicitly requested thread count as-is;
otherwise it takes the larger of two host-derived estimates (90% of the
logical CPUs and 75% of the physical CPUs, rounded) and caps it at the
number of files.  The two estimates depend on `num_cpus` probes of the
host, so they are parameters of the embedding. -/
def determine_threads (files : List String) (threads : Option Nat)
    (logical_estimate physical_estimate : Nat) : Nat :=
  match threads with
  | some t => t
  | none => min (max logical_estimate physical_estimate) files.length

/-! ## Zip-archive member selection (src/process_files.rs:357-398) -/

/-- `VALID_FILES` (src/process_files.rs:16): the suffixes a zip member's
name is matched against. -/
def VALID_FILES : List (List Char) :=
  [['f', 'a'], ['f', 'a', 's', 't', 'a'], ['f', 'n', 'a']]

/-- A member of a zip archive, as the iteration over `archive.by_index`
sees it: its full name, whether it is a file, and its byte content. -/
structure ZipEntry where
  name : List Char
  isFile : Bool
  content : List Nat

/-- The qualification test of `process_zip_file`
(src/process_files.rs:374): `file.is_file() &&
VALID_FILES.iter().any(|ext| file_name.ends_with(ext))`. -/
def zipMemberQualifies (e : ZipEntry) : Bool :=
  e.isFile && VALID_FILES.any (fun ext => ext.isSuffixOf e.name)

/-- Embedding of the member loop of `process_zip_file`
(src/process_files.rs:365-398): every qualifying member is analysed with
the shared parser pipeline and contributes one result; the others are
skipped.  (The source derives the displayed label through `Path::file_name`;
here the full member name stands for it.) -/
def process_zip_file (caps : SimdCaps) (no_simd : Bool) (entries : List ZipEntry) :
    List AnalysisResults :=
  entries.foldl
    (fun acc e =>
      if zipMemberQualifies e then
        match processChunks caps no_simd (String.mk e.name) [e.content] with
        | some r => acc ++ [r]
        | none => acc
      else acc)
    []

/-! ## Claim theorems -/

/-- C1: every classifier kernel (AVX2 on any valid 32-byte `align_to`
split, AVX512 on any valid 64-byte split, NEON on any valid 16-byte split,
SVE2 at any positive vector length) returns the same
`(gc_count, n_count, sequence_char_count)` triple as the portable scalar
loop on the same byte slice — including the empty slice, slices shorter
than one vector width and slices of non-multiple length, all of which
appear as instances of the quantifiers — and the dispatching entry point
`update_stats` returns that same triple on every valid host model
regardless of the `no_simd` flag. -/
theorem claim_C1 :
    (∀ (head : List Nat) (mid : List (List Nat)) (tail line : List Nat),
      head ++ mid.flatten ++ tail = line → (∀ ch ∈ mid, ch.length = 32) →
      (∀ ch ∈ mid, ∀ b ∈ ch, b < 256) →
      update_stats_avx2 head mid tail = update_stats_scalar line)
    ∧ (∀ (head : List Nat) (mid : List (List Nat)) (tail line : List Nat),
      head ++ mid.flatten ++ tail = line → (∀ ch ∈ mid, ch.length = 64) →
      (∀ ch ∈ mid, ∀ b ∈ ch, b < 256) →
      update_stats_avx512 head mid tail = update_stats_scalar line)
    ∧ (∀ (head : List Nat) (mid : List (List Nat)) (tail line : List Nat),
      head ++ mid.flatten ++ tail = line → (∀ ch ∈ mid, ch.length = 16) →
      (∀ ch ∈ mid, ∀ b ∈ ch, b < 256) →
      update_stats_neon head mid tail = update_stats_scalar line)
    ∧ (∀ vl : Nat, 0 < vl → ∀ line : List Nat,
      update_stats_sve2 vl line = update_stats_scalar line)
    ∧ (∀ caps : SimdCaps, ValidCaps caps → ∀ line : List Nat,
      (∀ b ∈ line, b < 256) → ∀ f1 f2 : Bool,
      update_stats caps line f1 = update_stats caps line f2
      ∧ update_stats caps line f1 = update_stats_scalar line) := by
  refine ⟨?_, ?_, ?_, ?_, ?_⟩
  · intro head mid tail line hsplit hlen hb
    exact update_stats_avx2_eq head mid tail line hsplit hlen hb
  · intro head mid tail line hsplit hlen hb
    exact update_stats_avx512_eq head mid tail line hsplit hlen hb
  · intro head mid tail line hsplit hlen hb
    exact update_stats_neon_eq head mid tail line hsplit hlen hb
  · intro vl hvl line
    exact update_stats_sve2_eq vl hvl line
  · intro caps hcaps line hb f1 f2
    exact ⟨(update_stats_eq_scalar caps hcaps line hb f1).trans
      (update_stats_eq_scalar caps hcaps line hb f2).symm,
      update_stats_eq_scalar caps hcaps line hb f1⟩

theorem claim_C1_witness :
    update_stats_avx2 [71] [List.replicate 32 99] [78, 45]
      = update_stats_scalar ([71] ++ List.replicate 32 99 ++ [78, 45])
    ∧ update_stats trivCaps [71, 99, 110, 78, 10, 88] false
      = update_stats_scalar [71, 99, 110, 78, 10, 88] := by
  constructor
  · exact claim_C1.1 [71] [List.replicate 32 99] [78, 45]
      ([71] ++ List.replicate 32 99 ++ [78, 45]) (by decide) (by decide) (by decide)
  · exact (claim_C1.2.2.2.2 trivCaps trivCaps_valid [71, 99, 110, 78, 10, 88]
      (by decide) false true).2

/-- C2: for every input byte stream and every way of splitting it into
successive chunks, feeding the chunks in order into one parser and
finishing produces the same `AnalysisResults` record (all fields at once:
total, count, composition, extremes and N-statistics) as feeding the whole
stream as a single chunk, on every valid host model and either value of
the `no_simd` flag. -/
theorem claim_C2 (caps : SimdCaps) (no_simd : Bool) (filename : String)
    (chunks : List (List Nat)) (hcaps : ValidCaps caps)
    (hb : ∀ b ∈ chunks.flatten, b < 256) :
    processChunks caps no_simd filename chunks
      = processChunks caps no_simd filename [chunks.flatten] := by
  have hcl1 : ∀ chunk ∈ chunks, ∀ k1 k2 : Nat,
      update_stats caps (((chunk : List Nat).drop k1).take k2) no_simd
        = update_stats_scalar ((chunk.drop k1).take k2) := by
    intro chunk hc
    exact hcl_of_valid caps hcaps no_simd chunk
      (fun b hbm => hb b (List.mem_flatten.mpr ⟨chunk, hc, hbm⟩))
  have hcl2 : ∀ chunk ∈ [chunks.flatten], ∀ k1 k2 : Nat,
      update_stats caps (((chunk : List Nat).drop k1).take k2) no_simd
        = update_stats_scalar ((chunk.drop k1).take k2) := by
    intro chunk hc
    rw [List.mem_singleton] at hc
    subst hc
    exact hcl_of_valid caps hcaps no_simd _ hb
  rw [processChunks_eq caps no_simd filename chunks hcl1,
    processChunks_eq caps no_simd filename [chunks.flatten] hcl2]
  simp

theorem claim_C2_witness :
    processChunks trivCaps false "f" [[62], [97, 10, 71], [], [67, 110, 10, 62, 98, 10, 84]]
      = processChunks trivCaps false "f" [[62, 97, 10, 71, 67, 110, 10, 62, 98, 10, 84]] := by
  have h := claim_C2 trivCaps false "f" [[62], [97, 10, 71], [], [67, 110, 10, 62, 98, 10, 84]]
    trivCaps_valid (by decide)
  simpa using h

/-- C3: on every byte slice the scalar classifier returns exactly
`(gc_count, n_count, sequence_char_count)` where `gc_count` counts the
bytes in `{G, g, C, c}`, `n_count` counts the bytes in `{N, n}`, and
`sequence_char_count` is the slice length minus the number of Skip bytes
(space, tab, newline, carriage return, dash, dot); every other byte —
ambiguity codes and arbitrary non-ASCII values alike — therefore counts
toward `sequence_char_count` and toward neither composition counter. -/
theorem claim_C3 (line : List Nat) :
    update_stats_scalar line
      = (line.countP (fun b => isGCByte b),
         line.countP (fun b => isNByte b),
         line.length - line.countP (fun b => isSkipByte b))
    ∧ ∀ b : Nat, isGCByte b = decide (b = 71 ∨ b = 103 ∨ b = 67 ∨ b = 99)
      ∧ isNByte b = decide (b = 78 ∨ b = 110)
      ∧ isSkipByte b = decide (b = 32 ∨ b = 9 ∨ b = 10 ∨ b = 13 ∨ b = 45 ∨ b = 46) :=
  ⟨update_stats_scalar_eq_counts line, fun _ => ⟨rfl, rfl, rfl⟩⟩

/-- C4: for every non-empty record-length list fed to a fresh result
record, the reducer sets the extremes from the descending sort and sets
each N-statistic to the first element of the descending order at which the
running cumulative sum reaches `total/4`, `total/2`, `total*3/4`
(truncating division), recording the element's 1-based rank as the
associated sequence count; in particular on `[100, 200, 300, 400]` it
yields largest 400, shortest 100, N25 = 400 at rank 1, N50 = 300 at
rank 2, N75 = 200 at rank 3. -/
theorem claim_C4 :
    (∀ (res : AnalysisResults) (lengths : List Nat), lengths ≠ [] →
      res.n25 = 0 → res.n50 = 0 → res.n75 = 0 →
        (res.calculate_stats lengths).largest_contig = (sortDesc lengths).headD 0
        ∧ (res.calculate_stats lengths).shortest_contig
            = (sortDesc lengths).getLastD USIZE_MAX
        ∧ ∃ v25 r25 v50 r50 v75 r75,
          firstAtThreshold (lengths.sum / 4) (sortDesc lengths) 0 0 = some (v25, r25)
          ∧ firstAtThreshold (lengths.sum / 2) (sortDesc lengths) 0 0 = some (v50, r50)
          ∧ firstAtThreshold (lengths.sum * 3 / 4) (sortDesc lengths) 0 0 = some (v75, r75)
          ∧ (res.calculate_stats lengths).n25 = v25
          ∧ (res.calculate_stats lengths).n25_sequence_count = r25
          ∧ (res.calculate_stats lengths).n50 = v50
          ∧ (res.calculate_stats lengths).n50_sequence_count = r50
          ∧ (res.calculate_stats lengths).n75 = v75
          ∧ (res.calculate_stats lengths).n75_sequence_count = r75)
    ∧ ((AnalysisResults.new "t").calculate_stats [100, 200, 300, 400]).largest_contig = 400
    ∧ ((AnalysisResults.new "t").calculate_stats [100, 200, 300, 400]).shortest_contig = 100
    ∧ ((AnalysisResults.new "t").calculate_stats [100, 200, 300, 400]).n25 = 400
    ∧ ((AnalysisResults.new "t").calculate_stats [100, 200, 300, 400]).n25_sequence_count = 1
    ∧ ((AnalysisResults.new "t").calculate_stats [100, 200, 300, 400]).n50 = 300
    ∧ ((AnalysisResults.new "t").calculate_stats [100, 200, 300, 400]).n50_sequence_count = 2
    ∧ ((AnalysisResults.new "t").calculate_stats [100, 200, 300, 400]).n75 = 200
    ∧ ((AnalysisResults.new "t").calculate_stats [100, 200, 300, 400]).n75_sequence_count = 3 := by
  refine ⟨?_, by decide, by decide, by decide, by decide, by decide, by decide,
    by decide, by decide⟩
  intro res lengths hne h25 h50 h75
  obtain ⟨_, _, g3, g4, _, _, _⟩ := calculate_stats_fields res lengths hne
  exact ⟨g3, g4, calculate_stats_nstats res lengths hne h25 h50 h75⟩

theorem claim_C4_witness :
    ((AnalysisResults.new "w").calculate_stats [3, 1, 2]).largest_contig
        = (sortDesc [3, 1, 2]).headD 0
    ∧ ((AnalysisResults.new "w").calculate_stats [3, 1, 2]).shortest_contig
        = (sortDesc [3, 1, 2]).getLastD USIZE_MAX := by
  have h := claim_C4.1 (AnalysisResults.new "w") [3, 1, 2]
    (by decide) (by decide) (by decide) (by decide)
  exact ⟨h.1, h.2.1⟩

/-- C5 (amended): only the *trailing* open record is dropped when empty
(`finish` pushes it only if non-empty); every record recorded mid-stream —
including zero-length records produced by a header immediately followed by
another header — stays in the length list, and the contig extremes are the
maximum and minimum over that full list.  Zero-length mid-stream records
are therefore *not* excluded from `largest_contig`/`shortest_contig`;
see the accompanying counterexample. -/
theorem claim_C5 (st : FastaParser) (res : AnalysisResults)
    (hne : st.finalLengths ≠ []) :
    (st.finish res).largest_contig ∈ st.finalLengths
    ∧ (∀ x ∈ st.finalLengths, x ≤ (st.finish res).largest_contig)
    ∧ (st.finish res).shortest_contig ∈ st.finalLengths
    ∧ ∀ x ∈ st.finalLengths, (st.finish res).shortest_contig ≤ x := by
  have hsne : sortDesc st.finalLengths ≠ [] := by
    intro hcon
    have := sortDesc_length st.finalLengths
    rw [hcon] at this
    simp at this
    exact hne (List.eq_nil_of_length_eq_zero this.symm)
  obtain ⟨_, _, g3, g4, _, _, _⟩ := calculate_stats_fields res st.finalLengths hne
  have hfin3 : (st.finish res).largest_contig = (sortDesc st.finalLengths).headD 0 := g3
  have hfin4 : (st.finish res).shortest_contig
      = (sortDesc st.finalLengths).getLastD USIZE_MAX := g4
  obtain ⟨hh1, hh2⟩ := sorted_head_max (sortDesc st.finalLengths)
    (sortDesc_sorted st.finalLengths) hsne
  obtain ⟨hl1, hl2⟩ := sorted_last_min (sortDesc st.finalLengths)
    (sortDesc_sorted st.finalLengths) hsne
  have hswap : (sortDesc st.finalLengths).getLastD USIZE_MAX
      = (sortDesc st.finalLengths).getLastD 0 := getLastD_irrel _ hsne _ _
  refine ⟨?_, ?_, ?_, ?_⟩
  · rw [hfin3]
    exact (sortDesc_mem st.finalLengths _).mp hh1
  · intro x hx
    rw [hfin3]
    exact hh2 x ((sortDesc_mem st.finalLengths x).mpr hx)
  · rw [hfin4, hswap]
    exact (sortDesc_mem st.finalLengths _).mp hl1
  · intro x hx
    rw [hfin4, hswap]
    exact hl2 x ((sortDesc_mem st.finalLengths x).mpr hx)

theorem claim_C5_witness :
    (FastaParser.finish ⟨[0, 2], 0, false, true, true⟩
        (AnalysisResults.new "w")).shortest_contig
      ∈ FastaParser.finalLengths ⟨[0, 2], 0, false, true, true⟩ :=
  (claim_C5 ⟨[0, 2], 0, false, true, true⟩ (AnalysisResults.new "w")
    (by decide)).2.2.1

/-- C5 counterexample: on the stream `>a\n>b\nC\n` the first record has an
empty body and is recorded as a zero-length entry; the finalized extremes
are `largest_contig = 1` and `shortest_contig = 0`, not the
positive-record extremes `(1, 1)` the claim predicts. -/
theorem claim_C5_counterexample :
    (processChunks trivCaps true "t" [[62, 97, 10, 62, 98, 10, 67, 10]]).map
        (fun r => (r.largest_contig, r.shortest_contig))
      = some (1, 0) := by
  decide

/-- C6 (amended): the *pre-finalization* `sequence_count` equals the
number of header lines seen (`>` at start of line), and a lone header with
no body yields `sequence_count = 1` and `total_length = 0`; but the Stats
Reducer does *not* leave the count unchanged in general: it overwrites it
with the number of recorded lengths, which is one less than the header
count whenever the last record is empty and at least one earlier record
exists (see the accompanying counterexample). -/
theorem claim_C6 :
    (∀ (caps : SimdCaps) (no_simd : Bool) (filename : String)
      (chunks : List (List Nat)), ValidCaps caps →
      (∀ b ∈ List.flatten chunks, b < 256) →
      ∃ (st : FastaParser) (res : AnalysisResults),
        chunks.foldlM
          (fun acc chunk => feedGo caps no_simd chunk 0 acc.1 acc.2 (chunk.length + 1))
          (FastaParser.new, AnalysisResults.new filename) = some (st, res)
        ∧ processChunks caps no_simd filename chunks = some (st.finish res)
        ∧ res.sequence_count = headerLines chunks.flatten true
        ∧ (st.finish res).sequence_count
            = headerLines chunks.flatten true
              - (if st.started = true ∧ st.current_sequence_length = 0
                    ∧ st.lengths ≠ [] then 1 else 0))
    ∧ (processChunks trivCaps true "lone" [[62, 115, 101, 113, 10]]).map
        (fun r => (r.sequence_count, r.total_length)) = some (1, 0) := by
  constructor
  · intro caps no_simd filename chunks hcaps hb
    have hcl : ∀ chunk ∈ chunks, ∀ k1 k2 : Nat,
        update_stats caps (((chunk : List Nat).drop k1).take k2) no_simd
          = update_stats_scalar ((chunk.drop k1).take k2) := by
      intro chunk hc
      exact hcl_of_valid caps hcaps no_simd chunk
        (fun b hbm => hb b (List.mem_flatten.mpr ⟨chunk, hc, hbm⟩))
    have hfold := foldlM_feedGo_eq caps no_simd chunks hcl
      (FastaParser.new, AnalysisResults.new filename)
    refine ⟨(runBytes (FastaParser.new, AnalysisResults.new filename) chunks.flatten).1,
      (runBytes (FastaParser.new, AnalysisResults.new filename) chunks.flatten).2,
      by rw [hfold], ?_, ?_, ?_⟩
    · unfold processChunks
      rw [hfold]
      rfl
    · obtain ⟨hcnt, _⟩ := runBytes_headerLines chunks.flatten
        (FastaParser.new, AnalysisResults.new filename)
        (by intro hcon; simp [FastaParser.new] at hcon)
      rw [hcnt]
      simp [FastaParser.new, AnalysisResults.new]
    · have hseq : (runBytes (FastaParser.new, AnalysisResults.new filename)
          chunks.flatten).2.sequence_count = headerLines chunks.flatten true := by
        obtain ⟨hcnt, _⟩ := runBytes_headerLines chunks.flatten
          (FastaParser.new, AnalysisResults.new filename)
          (by intro hcon; simp [FastaParser.new] at hcon)
        rw [hcnt]
        simp [FastaParser.new, AnalysisResults.new]
      obtain ⟨i1, i2, _⟩ := runBytes_inv chunks.flatten
        (FastaParser.new, AnalysisResults.new filename) (parserInv_init filename)
      set p := runBytes (FastaParser.new, AnalysisResults.new filename) chunks.flatten
        with hp
      by_cases hfe : p.1.finalLengths = []
      · have hcur : p.1.current_sequence_length = 0 ∧ p.1.lengths = [] := by
          unfold FastaParser.finalLengths at hfe
          by_cases hc : 0 < p.1.current_sequence_length
          · rw [if_pos hc] at hfe
            simp at hfe
          · rw [if_neg hc] at hfe
            exact ⟨by omega, hfe⟩
        show (p.1.finish p.2).sequence_count = _
        unfold FastaParser.finish
        rw [hfe, calculate_stats_nil, hseq,
          if_neg (fun hcon => hcon.2.2 hcur.2)]
        omega
      · show (p.1.finish p.2).sequence_count = _
        have hflen : (p.1.finish p.2).sequence_count = p.1.finalLengths.length :=
          (calculate_stats_fields p.2 p.1.finalLengths hfe).2.1
        by_cases hc : 0 < p.1.current_sequence_length
        · have hstart : p.1.started = true := by
            by_contra hcon
            have hsf : p.1.started = false := by simpa using hcon
            obtain ⟨_, hcz, _⟩ := i1 hsf
            omega
          have hlen2 : p.1.finalLengths.length = p.1.lengths.length + 1 := by
            unfold FastaParser.finalLengths
            rw [if_pos hc]
            simp
          rw [hflen, hlen2, if_neg (fun hcon => by omega),
            ← hseq, i2 hstart]
          omega
        · have hcz : p.1.current_sequence_length = 0 := by omega
          have hlnne : p.1.lengths ≠ [] := by
            intro hcon
            apply hfe
            unfold FastaParser.finalLengths
            rw [if_neg hc]
            exact hcon
          have hstart : p.1.started = true := by
            by_contra hcon
            have hsf : p.1.started = false := by simpa using hcon
            obtain ⟨hlz, _, _⟩ := i1 hsf
            exact hlnne hlz
          have hlen2 : p.1.finalLengths.length = p.1.lengths.length := by
            unfold FastaParser.finalLengths
            rw [if_neg hc]
          have hcount := i2 hstart
          rw [hflen, hlen2, if_pos ⟨hstart, hcz, hlnne⟩, ← hseq, hcount]
          have hpos : 0 < p.1.lengths.length := List.length_pos.mpr hlnne
          omega
  · decide

theorem claim_C6_witness :
    ∃ (st : FastaParser) (res : AnalysisResults),
      List.foldlM
        (fun (acc : FastaParser × AnalysisResults) (chunk : List Nat) =>
          feedGo trivCaps true chunk 0 acc.1 acc.2 (chunk.length + 1))
        (FastaParser.new, AnalysisResults.new "w6") [[62, 97, 10, 71, 10]]
        = some (st, res)
      ∧ processChunks trivCaps true "w6" [[62, 97, 10, 71, 10]] = some (st.finish res)
      ∧ res.sequence_count = headerLines (List.flatten [[62, 97, 10, 71, 10]]) true
      ∧ (st.finish res).sequence_count
          = headerLines (List.flatten [[62, 97, 10, 71, 10]]) true
            - (if st.started = true ∧ st.current_sequence_length = 0
                  ∧ st.lengths ≠ [] then 1 else 0) :=
  claim_C6.1 trivCaps true "w6" [[62, 97, 10, 71, 10]] trivCaps_valid (by decide)

/-- C6 counterexample: the stream `>a\n>b\n` contains two header lines and
the pre-finalization count is 2, but finalization overwrites
`sequence_count` with the number of recorded lengths, reporting 1. -/
theorem claim_C6_counterexample :
    headerLines [62, 97, 10, 62, 98, 10] true = 2
    ∧ (processChunks trivCaps true "t2" [[62, 97, 10, 62, 98, 10]]).map
        (fun r => r.sequence_count) = some 1 := by
  exact ⟨by decide, by decide⟩

/-- C7: for every input stream (any chunking, any valid host model, either
`no_simd` flag) the finalized result satisfies `total_length` = the sum of
all record lengths (recorded records plus the open trailing record) and
`gc_count + n_count ≤ total_length`. -/
theorem claim_C7 (caps : SimdCaps) (no_simd : Bool) (filename : String)
    (chunks : List (List Nat)) (hcaps : ValidCaps caps)
    (hb : ∀ b ∈ List.flatten chunks, b < 256) :
    ∃ (st : FastaParser) (res : AnalysisResults),
      chunks.foldlM
        (fun acc chunk => feedGo caps no_simd chunk 0 acc.1 acc.2 (chunk.length + 1))
        (FastaParser.new, AnalysisResults.new filename) = some (st, res)
      ∧ processChunks caps no_simd filename chunks = some (st.finish res)
      ∧ (st.finish res).total_length
          = st.lengths.sum + st.current_sequence_length
      ∧ (st.finish res).gc_count + (st.finish res).n_count
          ≤ (st.finish res).total_length := by
  have hcl : ∀ chunk ∈ chunks, ∀ k1 k2 : Nat,
      update_stats caps (((chunk : List Nat).drop k1).take k2) no_simd
        = update_stats_scalar ((chunk.drop k1).take k2) := by
    intro chunk hc
    exact hcl_of_valid caps hcaps no_simd chunk
      (fun b hbm => hb b (List.mem_flatten.mpr ⟨chunk, hc, hbm⟩))
  have hfold := foldlM_feedGo_eq caps no_simd chunks hcl
    (FastaParser.new, AnalysisResults.new filename)
  set p := runBytes (FastaParser.new, AnalysisResults.new filename) chunks.flatten
    with hp
  have htot0 : p.2.total_length = 0 := by
    have := (runBytes_frame chunks.flatten
      (FastaParser.new, AnalysisResults.new filename)).1
    rw [← hp] at this
    rw [this]
    simp [AnalysisResults.new]
  have hftot : (p.1.finish p.2).total_length = p.1.finalLengths.sum :=
    finish_total p.1 p.2 htot0
  have hsum : p.1.finalLengths.sum
      = p.1.lengths.sum + p.1.current_sequence_length := by
    unfold FastaParser.finalLengths
    by_cases hc : 0 < p.1.current_sequence_length
    · rw [if_pos hc]
      simp
    · rw [if_neg hc]
      omega
  obtain ⟨_, _, i3⟩ := runBytes_inv chunks.flatten
    (FastaParser.new, AnalysisResults.new filename) (parserInv_init filename)
  rw [← hp] at i3
  obtain ⟨hg, hn, _⟩ := finish_frame p.1 p.2
  refine ⟨p.1, p.2, by rw [hfold], ?_, ?_, ?_⟩
  · unfold processChunks
    rw [hfold]
    rfl
  · rw [hftot, hsum]
  · rw [hg, hn, hftot, hsum]
    exact i3

theorem claim_C7_witness :
    ∃ (st : FastaParser) (res : AnalysisResults),
      List.foldlM
        (fun (acc : FastaParser × AnalysisResults) (chunk : List Nat) =>
          feedGo trivCaps false chunk 0 acc.1 acc.2 (chunk.length + 1))
        (FastaParser.new, AnalysisResults.new "w7")
        [[62, 115, 10, 71, 67], [84, 10]] = some (st, res)
      ∧ processChunks trivCaps false "w7" [[62, 115, 10, 71, 67], [84, 10]]
          = some (st.finish res)
      ∧ (st.finish res).total_length
          = st.lengths.sum + st.current_sequence_length
      ∧ (st.finish res).gc_count + (st.finish res).n_count
          ≤ (st.finish res).total_length :=
  claim_C7 trivCaps false "w7" [[62, 115, 10, 71, 67], [84, 10]]
    trivCaps_valid (by decide)

/-- C8: the feed loop is total — for every parser state, every result
record, every byte buffer (all byte values included) and any host model,
the embedded loop of `FastaParser::feed` terminates with a value within
its structural fuel bound and never hits the internal-failure path, and
`feed` returns exactly that value. -/
theorem claim_C8 (caps : SimdCaps) (no_simd : Bool) (data : List Nat)
    (st : FastaParser) (res : AnalysisResults) :
    ∃ q : FastaParser × AnalysisResults,
      feedGo caps no_simd data 0 st res (data.length + 1) = some q
      ∧ FastaParser.feed caps no_simd st res data = q := by
  obtain ⟨q, hq⟩ := Option.isSome_iff_exists.mp
    (feedGo_isSome caps no_simd data (data.length + 1) 0 st res (by omega) (by omega))
  exact ⟨q, hq, by unfold FastaParser.feed; rw [hq]; rfl⟩

/-- C9 (amended): an explicitly requested worker count is used exactly as
given; otherwise the count is the larger of the two host-derived estimates
clamped to the number of input files.  The clamp makes the derived count 0
— not at least 1 — when the file list is empty (see the accompanying
counterexample); with at least one file and a positive logical-CPU
estimate (both hold in any real invocation) the count is at least 1. -/
theorem claim_C9 :
    (∀ (files : List String) (t a b : Nat),
      determine_threads files (some t) a b = t)
    ∧ (∀ (files : List String) (a b : Nat),
      determine_threads files none a b = min (max a b) files.length)
    ∧ (∀ (files : List String) (a b : Nat), files ≠ [] → 1 ≤ a →
      1 ≤ determine_threads files none a b) := by
  refine ⟨fun _ _ _ _ => rfl, fun _ _ _ => rfl, ?_⟩
  intro files a b hne ha
  have hlen : 0 < files.length := List.length_pos.mpr hne
  show 1 ≤ min (max a b) files.length
  have hab : 1 ≤ max a b := le_trans ha (le_max_left a b)
  omega

theorem claim_C9_witness :
    1 ≤ determine_threads ["genome.fa"] none 4 3 :=
  claim_C9.2.2 ["genome.fa"] 4 3 (by simp) (by omega)

/-- C9 counterexample: with an empty file list and no explicit count the
derived worker count is 0, refuting "never fewer than 1". -/
theorem claim_C9_counterexample : determine_threads [] none 4 3 = 0 := by
  decide

/-- Each qualifying member contributes exactly one result to the zip walk
(the parser pipeline never fails, so the error-continue arm is dead). -/
theorem process_zip_foldl_length (caps : SimdCaps) (no_simd : Bool) :
    ∀ (entries : List ZipEntry) (acc : List AnalysisResults),
      (entries.foldl
        (fun acc e =>
          if zipMemberQualifies e then
            match processChunks caps no_simd (String.mk e.name) [e.content] with
            | some r => acc ++ [r]
            | none => acc
          else acc)
        acc).length = acc.length + entries.countP zipMemberQualifies := by
  intro entries
  induction entries with
  | nil => intro acc; simp
  | cons e rest ih =>
    intro acc
    simp only [List.foldl_cons, List.countP_cons]
    by_cases hq : zipMemberQualifies e = true
    · rw [if_pos hq]
      obtain ⟨r, hr⟩ := Option.isSome_iff_exists.mp
        (processChunks_isSome caps no_simd (String.mk e.name) [e.content])
      rw [hr]
      show (rest.foldl _ (acc ++ [r])).length = _
      rw [ih (acc ++ [r])]
      simp [hq]
      omega
    · rw [if_neg hq, ih acc]
      simp [hq]

/-- C10: a zip member qualifies for analysis iff it is a file whose full
name ends with the literal suffix `fa`, `fasta` or `fna` — a plain suffix
match on the name, not a match on the dot-separated extension — so a name
such as `sofa` qualifies while a directory named `x.fasta` or a file named
`x.fast` does not; and the zip walk produces exactly one result per
qualifying member. -/
theorem claim_C10 :
    (∀ (caps : SimdCaps) (no_simd : Bool) (entries : List ZipEntry),
      (process_zip_file caps no_simd entries).length
        = entries.countP zipMemberQualifies)
    ∧ (∀ e : ZipEntry, zipMemberQualifies e
        = (e.isFile && (List.isSuffixOf ['f', 'a'] e.name
            || (List.isSuffixOf ['f', 'a', 's', 't', 'a'] e.name
              || List.isSuffixOf ['f', 'n', 'a'] e.name))))
    ∧ zipMemberQualifies ⟨['s', 'o', 'f', 'a'], true, []⟩ = true
    ∧ zipMemberQualifies ⟨['f', 'a', 's', 't', 'a'], false, []⟩ = false
    ∧ zipMemberQualifies ⟨['x', '.', 'f', 'a', 's', 't'], true, []⟩ = false := by
  refine ⟨?_, ?_, by decide, by decide, by decide⟩
  · intro caps no_simd entries
    unfold process_zip_file
    rw [process_zip_foldl_length caps no_simd entries []]
    simp
  · intro e
    simp [zipMemberQualifies, VALID_FILES]
